import Mathlib

/-!
# Marching-squares contour pipeline (`tema1_par.c`)

A shallow embedding of the three per-worker phases `rescale_image`, `sample`
and `march`, of the helpers they call, and of the work partitioning each phase
derives from the worker id.

* Pixel buffers and the binary grid are flat memories: total functions from an
  index to the stored value.  A write is a pointwise update.
* The partition bounds are computed by the C code in `double`.  They are
  embedded with a bit-exact model of IEEE-754 binary64 round-to-nearest-even
  on non-negative values (`fl`), so that the truncations `(int)` see the very
  value the hardware produces.
* The barrier-separated phases of all workers are sequenced worker after
  worker (`rescale_all`, `sample_all`, `march_all`).
* `march_checked` is `march` with every array access checked against the size
  of the array it goes to; its result `none` stands for an access outside an
  array, where the C program has no defined behaviour.
* `sample_traced` and `march_traced` are `sample` and `march` with the same
  loops, recording in program order the pixel indices read and the cells or
  pixel indices written; dropping the record gives back `sample` and `march`.
-/

namespace Tema1

/-! ## Constants -/

def CONTOUR_CONFIG_COUNT : Nat := 16
def STEP : Nat := 8
def SIGMA : Nat := 200
def RESCALE_X : Nat := 2048
def RESCALE_Y : Nat := 2048

/-! ## binary64 arithmetic on non-negative values -/

/-- A finite non-negative `double`, held as the exact fraction `num / den`
(`den` is a power of two for every value the operations below return). -/
structure Dbl where
  num : Nat
  den : Nat
deriving DecidableEq

def log2Aux : Nat → Nat → Nat
  | 0, _ => 0
  | fuel + 1, n => if n < 2 then 0 else log2Aux fuel (n / 2) + 1

/-- Floor of the binary logarithm (`0` at `0`). -/
def log2 (n : Nat) : Nat := log2Aux n n

/-- Nearest integer to `a / b`, ties to the even neighbour. -/
def roundHalfEven (a b : Nat) : Nat :=
  if 2 * (a % b) < b then a / b
  else if b < 2 * (a % b) then a / b + 1
  else a / b + (a / b) % 2

/-- Scaling exponent of `a / b`: the `s` in `{52, 53}` with
`2^52 ≤ (a / b) * 2^(s + log2 b - log2 a) < 2^53`. -/
def flShift (a b : Nat) : Nat :=
  if b * 2 ^ log2 a ≤ a * 2 ^ log2 b then 52 else 53

/-- The 53-bit significand of `a / b` after rounding. -/
def flMant (a b : Nat) : Nat :=
  roundHalfEven (a * 2 ^ (flShift a b + log2 b)) (b * 2 ^ log2 a)

/-- The binary64 value nearest to the exact quotient `a / b` (ties to even).
The exponent range is not bounded: no value of this program comes near the
subnormal or overflow thresholds.  `b = 0` (a division by zero, which needs a
thread count of zero) is outside the model. -/
def fl (a b : Nat) : Dbl :=
  if a = 0 then ⟨0, 1⟩
  else ⟨flMant a b * 2 ^ (log2 a - (flShift a b + log2 b)),
        2 ^ (flShift a b + log2 b - log2 a)⟩

/-- Conversion `(double)n` of a non-negative integer. -/
def Dbl.ofInt (n : Nat) : Dbl := fl n 1

/-- The product `x * y` in `double`. -/
def Dbl.mul (x y : Dbl) : Dbl := fl (x.num * y.num) (x.den * y.den)

/-- The quotient `x / y` in `double`. -/
def Dbl.div (x y : Dbl) : Dbl := fl (x.num * y.den) (x.den * y.num)

/-- Conversion `(int)x`: truncation toward zero. -/
def Dbl.toInt (x : Dbl) : Nat := x.num / x.den

/-- The rational number a `Dbl` stands for. -/
def Dbl.val (x : Dbl) : ℚ := (x.num : ℚ) / (x.den : ℚ)

/-! ## Data model -/

/-- Modelled from the spec: `ppm_pixel` of `helpers.h`, which is not part of
the sources; an (r, g, b) triple of 8-bit channels. -/
structure ppm_pixel where
  red : Nat
  green : Nat
  blue : Nat
deriving DecidableEq

/-- Modelled from the spec: `ppm_image` of `helpers.h`, which is not part of
the sources; `x` rows of `y` pixels each, stored row-major in `data`, so that
pixel `(i, j)` lives at flat index `i * y + j`. -/
structure ppm_image where
  x : Nat
  y : Nat
  data : Nat → ppm_pixel

/-- The `unsigned char **grid`: `grid i j` is the byte `grid[i][j]`. -/
abbrev Grid : Type := Nat → Nat → Nat

/-- The assignment `grid[i][j] = v`. -/
def Grid.set (g : Grid) (i j v : Nat) : Grid :=
  fun a b => if a = i ∧ b = j then v else g a b

/-- The assignment `data[k] = v`. -/
def setPixel (d : Nat → ppm_pixel) (k : Nat) (v : ppm_pixel) : Nat → ppm_pixel :=
  fun n => if n = k then v else d n

/-- The loop `for (int i = lo; i < hi; i++) body`. -/
def forLoop {σ : Type} (lo hi : Nat) (body : Nat → σ → σ) (s : σ) : σ :=
  (List.range' lo (hi - lo)).foldl (fun s i => body i s) s

/-! ## Helpers of the C file -/

def min (a b : Nat) : Nat := if a < b then a else b

/-- The grid returned by `init_grid`: `malloc`ed rows that are never cleared,
so every byte holds whatever the allocator left there (`heap`). -/
def init_grid (heap : Nat → Nat → Nat) (_p _q : Nat) : Grid :=
  fun i j => heap i j % 256

/-- The working image chosen by `init_rescale`; `fresh` is the content of the
newly allocated pixel array. -/
def init_rescale (fresh : Nat → ppm_pixel) (image : ppm_image) : ppm_image :=
  if image.x ≤ RESCALE_X ∧ image.y ≤ RESCALE_Y then image
  else ⟨RESCALE_X, RESCALE_Y, fresh⟩

/-! ## Work partitioning -/

/-- The line `int start = arg->id * (double)arg->scaled_image->x / arg->number_of_threads;` -/
def rescale_start (id N x : Nat) : Nat :=
  Dbl.toInt (Dbl.div (Dbl.mul (Dbl.ofInt id) (Dbl.ofInt x)) (Dbl.ofInt N))

/-- The line `int end = min((arg->id + 1) * (double)arg->scaled_image->x / arg->number_of_threads, arg->scaled_image->x);` -/
def rescale_end (id N x : Nat) : Nat :=
  min (Dbl.toInt (Dbl.div (Dbl.mul (Dbl.ofInt (id + 1)) (Dbl.ofInt x)) (Dbl.ofInt N))) x

/-- The line `int start_p = arg->id * ((double)p / arg->number_of_threads);` -/
def sample_start_p (id N p : Nat) : Nat :=
  Dbl.toInt (Dbl.mul (Dbl.ofInt id) (Dbl.div (Dbl.ofInt p) (Dbl.ofInt N)))

/-- The line `int end_p = min(p, (arg->id + 1) * (double)p / arg->number_of_threads);` -/
def sample_end_p (id N p : Nat) : Nat :=
  min p (Dbl.toInt (Dbl.div (Dbl.mul (Dbl.ofInt (id + 1)) (Dbl.ofInt p)) (Dbl.ofInt N)))

/-- The line `int start = arg->id * ((double)p / arg->number_of_threads);` -/
def march_start (id N p : Nat) : Nat :=
  Dbl.toInt (Dbl.mul (Dbl.ofInt id) (Dbl.div (Dbl.ofInt p) (Dbl.ofInt N)))

/-- The line `int end = min(p, (arg->id + 1) * (double)p / arg->number_of_threads);` -/
def march_end (id N p : Nat) : Nat :=
  min p (Dbl.toInt (Dbl.div (Dbl.mul (Dbl.ofInt (id + 1)) (Dbl.ofInt p)) (Dbl.ofInt N)))

/-! ## Phase 1: rescale -/

/-- One worker's `rescale_image`.  `sample_bicubic` is the external sampler of
`helpers.h`; its two `float` coordinates `(float)i / (float)(x - 1)` and
`(float)j / (float)(y - 1)` are handed over as the pairs of dividend and
divisor. -/
def rescale_image (sample_bicubic : ppm_image → Nat × Nat → Nat × Nat → ppm_pixel)
    (id N : Nat) (image scaled_image : ppm_image) : ppm_image :=
  if image.x = scaled_image.x ∧ image.y = scaled_image.y then scaled_image
  else
    { scaled_image with
      data :=
        forLoop (rescale_start id N scaled_image.x) (rescale_end id N scaled_image.x)
          (fun i d =>
            forLoop 0 scaled_image.y
              (fun j d =>
                setPixel d (i * scaled_image.y + j)
                  (sample_bicubic image (i, scaled_image.x - 1) (j, scaled_image.y - 1)))
              d)
          scaled_image.data }

/-! ## Phase 2: sample -/

/-- The line `unsigned char curr_color = (red + green + blue) / 3;` -/
def curr_color (px : ppm_pixel) : Nat := ((px.red + px.green + px.blue) / 3) % 256

/-- The value stored for a pixel: `0` if `curr_color > SIGMA`, else `1`. -/
def grid_value (px : ppm_pixel) : Nat := if curr_color px > SIGMA then 0 else 1

/-- One worker's `sample`.  The test `arg->id == arg->number_of_threads - 1` is
written `id + 1 = N`, which is the same over the integers. -/
def sample (id N : Nat) (img : ppm_image) (grid : Grid) : Grid :=
  let p := img.x / STEP
  let q := img.y / STEP
  let g1 :=
    forLoop (sample_start_p id N p) (sample_end_p id N p)
      (fun i g =>
        forLoop 0 q
          (fun j g => g.set i j (grid_value (img.data (i * STEP * img.y + j * STEP))))
          g)
      grid
  if id + 1 = N then
    let g2 :=
      forLoop 0 p
        (fun i g => g.set i q (grid_value (img.data (i * STEP * img.y + img.x - 1))))
        g1
    forLoop 0 q
      (fun j g => g.set p j (grid_value (img.data ((img.x - 1) * img.y + j * STEP))))
      g2
  else g1

/-! ## Phase 3: march -/

/-- The line `unsigned char k = 8 * grid[i][j] + 4 * grid[i][j + 1] + 2 * grid[i + 1][j + 1] + 1 * grid[i + 1][j];` -/
def config_k (grid : Grid) (i j : Nat) : Nat :=
  (8 * grid i j + 4 * grid i (j + 1) + 2 * grid (i + 1) (j + 1) + 1 * grid (i + 1) j) % 256

/-- The two inner loops of `march`: copy the stamp `c` onto the block whose
top-left pixel is `(x, y)` in an image with rows of `rowLen` pixels. -/
def stamp (c : ppm_image) (rowLen x y : Nat) (d : Nat → ppm_pixel) : Nat → ppm_pixel :=
  forLoop 0 c.x
    (fun i d =>
      forLoop 0 c.y
        (fun j d => setPixel d ((x + i) * rowLen + y + j) (c.data (c.x * i + j)))
        d)
    d

/-- One worker's `march`. -/
def march (id N : Nat) (contour_map : Nat → ppm_image) (grid : Grid) (img : ppm_image) :
    ppm_image :=
  let p := img.x / STEP
  let q := img.y / STEP
  { img with
    data :=
      forLoop (march_start id N p) (march_end id N p)
        (fun i d =>
          forLoop 0 q
            (fun j d => stamp (contour_map (config_k grid i j)) img.y (i * STEP) (j * STEP) d)
            d)
        img.data }

/-- The pixel `march` leaves at index `k` of a stamped block: the stamp of the
cell the pixel lies in, at the pixel's offset inside the cell. -/
def stamped (contour_map : Nat → ppm_image) (grid : Grid) (R k : Nat) : ppm_pixel :=
  (contour_map (config_k grid (k / R / STEP) (k % R / STEP))).data
    (STEP * (k / R % STEP) + k % R % STEP)

/-! ## The phases over all workers -/

/-- Phase 1 of workers `0 .. N-1`. -/
def rescale_all (sample_bicubic : ppm_image → Nat × Nat → Nat × Nat → ppm_pixel)
    (N : Nat) (image scaled_image : ppm_image) : ppm_image :=
  (List.range N).foldl (fun s id => rescale_image sample_bicubic id N image s) scaled_image

/-- Phase 2 of workers `0 .. N-1`. -/
def sample_all (N : Nat) (img : ppm_image) (grid : Grid) : Grid :=
  (List.range N).foldl (fun g id => sample id N img g) grid

/-- Phase 3 of workers `0 .. N-1`. -/
def march_all (N : Nat) (contour_map : Nat → ppm_image) (grid : Grid) (img : ppm_image) :
    ppm_image :=
  (List.range N).foldl (fun im id => march id N contour_map grid im) img

/-! ## The same phases with their memory accesses recorded -/

/-- The grid together with the pixel indices read and the grid cells written
so far, both in program order. -/
structure sample_trace where
  grid : Grid
  reads : List Nat
  writes : List (Nat × Nat)

/-- One loop body of `sample`: read `data[idx]` and store its grid value in
`grid[i][j]`. -/
def sample_cell (img : ppm_image) (idx i j : Nat) (s : sample_trace) : sample_trace :=
  ⟨s.grid.set i j (grid_value (img.data idx)), s.reads ++ [idx], s.writes ++ [(i, j)]⟩

/-- The first loop nest of `sample`, over the worker's own rows. -/
def sample_rows (id N : Nat) (img : ppm_image) (s : sample_trace) : sample_trace :=
  forLoop (sample_start_p id N (img.x / STEP)) (sample_end_p id N (img.x / STEP))
    (fun i s =>
      forLoop 0 (img.y / STEP)
        (fun j s => sample_cell img (i * STEP * img.y + j * STEP) i j s)
        s)
    s

/-- The two loops of the boundary fill of `sample`. -/
def sample_boundary (img : ppm_image) (s : sample_trace) : sample_trace :=
  forLoop 0 (img.y / STEP)
    (fun j s => sample_cell img ((img.x - 1) * img.y + j * STEP) (img.x / STEP) j s)
    (forLoop 0 (img.x / STEP)
      (fun i s => sample_cell img (i * STEP * img.y + img.x - 1) i (img.y / STEP) s)
      s)

/-- One worker's `sample`, recording every pixel it reads and every cell it
writes. -/
def sample_traced (id N : Nat) (img : ppm_image) (s : sample_trace) : sample_trace :=
  if id + 1 = N then sample_boundary img (sample_rows id N img s) else sample_rows id N img s

/-- The pixel array together with the indices written so far, in program
order. -/
structure march_trace where
  data : Nat → ppm_pixel
  writes : List Nat

/-- The two inner loops of `march`, recording every index written. -/
def stamp_traced (c : ppm_image) (rowLen x y : Nat) (s : march_trace) : march_trace :=
  forLoop 0 c.x
    (fun i s =>
      forLoop 0 c.y
        (fun j s =>
          ⟨setPixel s.data ((x + i) * rowLen + y + j) (c.data (c.x * i + j)),
            s.writes ++ [(x + i) * rowLen + y + j]⟩)
        s)
    s

/-- One worker's `march`, recording every index written. -/
def march_traced (id N : Nat) (contour_map : Nat → ppm_image) (grid : Grid) (img : ppm_image)
    (s : march_trace) : march_trace :=
  forLoop (march_start id N (img.x / STEP)) (march_end id N (img.x / STEP))
    (fun i s =>
      forLoop 0 (img.y / STEP)
        (fun j s =>
          stamp_traced (contour_map (config_k grid i j)) img.y (i * STEP) (j * STEP) s)
        s)
    s

def white : ppm_pixel := ⟨255, 255, 255⟩

def black : ppm_pixel := ⟨0, 0, 0⟩

/-- An image of `x` rows and `y` columns whose every pixel is white. -/
def solid_white (x y : Nat) : ppm_image := ⟨x, y, fun _ => white⟩

/-- An image of 8 rows and 16 columns, white except for the last pixel of
row 0 (row 0, column 15), which is black. -/
def wide_image : ppm_image := ⟨8, 16, fun k => if k = 15 then black else white⟩

/-- A 16 x 16 image with black pixels at the even flat indices and white
pixels at the odd ones. -/
def striped_image : ppm_image := ⟨16, 16, fun k => if k % 2 = 0 then black else white⟩

/-- The grid that holds `1` on row 0 and `0` everywhere else. -/
def top_row_grid : Grid := fun r _ => if r = 0 then 1 else 0

/-- Sixteen 8 x 8 stamps; stamp `k` is filled with the grey level `k`. -/
def shade_stamps : Nat → ppm_image := fun k => ⟨STEP, STEP, fun _ => ⟨k, k, k⟩⟩

theorem log2Aux_spec : ∀ fuel n : Nat, 0 < n → n ≤ fuel →
    2 ^ log2Aux fuel n ≤ n ∧ n < 2 ^ (log2Aux fuel n + 1)
  | 0, n, h0, h => by omega
  | fuel + 1, n, h0, h => by
    unfold log2Aux
    split
    · have h1 : n = 1 := by omega
      subst h1; simp
    · have ih := log2Aux_spec fuel (n / 2) (by omega) (by omega)
      obtain ⟨ih1, ih2⟩ := ih
      constructor
      · rw [pow_succ]; omega
      · rw [pow_succ]; omega

theorem log2_spec (n : Nat) (h : 0 < n) : 2 ^ log2 n ≤ n ∧ n < 2 ^ (log2 n + 1) :=
  log2Aux_spec n n h (le_refl n)

theorem roundHalfEven_ge (a b : Nat) : a / b ≤ roundHalfEven a b := by
  unfold roundHalfEven
  split
  · exact le_refl _
  · split <;> omega

theorem roundHalfEven_upper (a b : Nat) (hb : 0 < b) :
    2 * (roundHalfEven a b * b) ≤ 2 * a + b := by
  have h1 : b * (a / b) + a % b = a := Nat.div_add_mod a b
  have h2 : a % b < b := Nat.mod_lt a hb
  have h3 : roundHalfEven a b * b = b * roundHalfEven a b := Nat.mul_comm _ _
  unfold roundHalfEven at *
  split
  · rw [Nat.mul_comm (a / b) b]; omega
  · split
    · rw [Nat.add_mul, Nat.mul_comm (a / b) b]; omega
    · have h4 : (a / b) % 2 ≤ 1 := by omega
      have h5 : (a / b % 2) * b ≤ 1 * b := Nat.mul_le_mul_right b h4
      rw [Nat.add_mul, Nat.mul_comm (a / b) b]; omega

theorem roundHalfEven_le_of_le (a b k : Nat) (hb : 0 < b) (h : a ≤ k * b) :
    roundHalfEven a b ≤ k := by
  have h1 : b * (a / b) + a % b = a := Nat.div_add_mod a b
  have h2 : a % b < b := Nat.mod_lt a hb
  rcases Nat.lt_or_ge (a / b) k with hlt | hge
  · unfold roundHalfEven
    split
    · omega
    · split
      · omega
      · have : a / b % 2 ≤ 1 := by omega
        by_contra hc
        have hk : a / b + 1 = k := by omega
        -- tie case: 2 * (a % b) = b, rounds up only when a / b is odd
        omega
  · have h3 : k * b ≤ (a / b) * b := Nat.mul_le_mul_right b hge
    have h4 : (a / b) * b = b * (a / b) := Nat.mul_comm _ _
    have h5 : a % b = 0 := by omega
    have h6 : a / b = k := by
      have : (a / b) * b ≤ k * b := by omega
      exact Nat.le_antisymm (Nat.le_of_mul_le_mul_right this hb) hge
    unfold roundHalfEven
    rw [h5]
    simp [hb, h6]


theorem flShift_scaled (a b : Nat) (ha : 0 < a) (hb : 0 < b) :
    2 ^ 52 * (b * 2 ^ log2 a) ≤ a * 2 ^ (flShift a b + log2 b) := by
  obtain ⟨ha1, _⟩ := log2_spec a ha
  obtain ⟨_, hb2⟩ := log2_spec b hb
  unfold flShift
  split
  · rename_i h
    calc 2 ^ 52 * (b * 2 ^ log2 a) ≤ 2 ^ 52 * (a * 2 ^ log2 b) := Nat.mul_le_mul_left _ h
      _ = a * 2 ^ (52 + log2 b) := by rw [pow_add]; ring
  · have h1 : b * 2 ^ log2 a ≤ 2 ^ (log2 b + 1) * a :=
      Nat.mul_le_mul (Nat.le_of_lt hb2) ha1
    calc 2 ^ 52 * (b * 2 ^ log2 a) ≤ 2 ^ 52 * (2 ^ (log2 b + 1) * a) := Nat.mul_le_mul_left _ h1
      _ = a * 2 ^ (53 + log2 b) := by rw [pow_add, pow_add]; ring

theorem flShift_ge (a b : Nat) (ha : 0 < a) (hb : 0 < b) (hlt : a < 2 ^ 53 * b) :
    log2 a ≤ flShift a b + log2 b := by
  obtain ⟨ha1, _⟩ := log2_spec a ha
  obtain ⟨_, hb2⟩ := log2_spec b hb
  have h1 : 2 ^ log2 a < 2 ^ (53 + (log2 b + 1)) := by
    calc 2 ^ log2 a ≤ a := ha1
      _ < 2 ^ 53 * b := hlt
      _ < 2 ^ 53 * 2 ^ (log2 b + 1) := Nat.mul_lt_mul_of_pos_left hb2 (by positivity)
      _ = 2 ^ (53 + (log2 b + 1)) := by rw [← pow_add]
  have h2 : log2 a < 53 + (log2 b + 1) := (Nat.pow_lt_pow_iff_right (by norm_num)).1 h1
  unfold flShift
  split
  · rename_i h
    by_contra hc
    have h3 : log2 a = log2 b + 53 := by omega
    rw [h3, pow_add] at h
    have h4 : 2 ^ log2 b * (b * 2 ^ 53) ≤ 2 ^ log2 b * a := by
      calc 2 ^ log2 b * (b * 2 ^ 53) = b * (2 ^ log2 b * 2 ^ 53) := by ring
        _ ≤ a * 2 ^ log2 b := h
        _ = 2 ^ log2 b * a := by ring
    have h5 : b * 2 ^ 53 ≤ a := Nat.le_of_mul_le_mul_left h4 (by positivity)
    omega
  · omega

theorem fl_den_pos (a b : Nat) : 0 < (fl a b).den := by
  unfold fl
  split
  · exact Nat.one_pos
  · exact Nat.pos_pow_of_pos _ (by norm_num)

theorem pow_sub_div (m u v : Nat) :
    ((m * 2 ^ (u - v) : Nat) : ℚ) / ((2 ^ (v - u) : Nat) : ℚ) = (m : ℚ) * 2 ^ u / 2 ^ v := by
  push_cast
  rcases le_total u v with h | h
  · have h1 : u - v = 0 := Nat.sub_eq_zero_of_le h
    have h2 : (2 : ℚ) ^ v = 2 ^ u * 2 ^ (v - u) := by rw [← pow_add]; congr 1; omega
    rw [h1, h2]; field_simp; ring
  · have h1 : v - u = 0 := Nat.sub_eq_zero_of_le h
    have h2 : (2 : ℚ) ^ u = 2 ^ v * 2 ^ (u - v) := by rw [← pow_add]; congr 1; omega
    rw [h1, h2]; field_simp; ring

theorem fl_val_eq (a b : Nat) (ha : a ≠ 0) :
    (fl a b).val = (flMant a b : ℚ) * 2 ^ log2 a / 2 ^ (flShift a b + log2 b) := by
  unfold fl Dbl.val
  rw [if_neg ha]
  exact pow_sub_div _ _ _

theorem fl_zero (b : Nat) : fl 0 b = ⟨0, 1⟩ := by
  unfold fl; simp

theorem fl_val_le (a b : Nat) (hb : 0 < b) :
    (fl a b).val ≤ (a : ℚ) / b * (1 + 1 / 2 ^ 53) := by
  rcases Nat.eq_zero_or_pos a with ha | ha
  · subst ha; rw [fl_zero]; simp [Dbl.val]
  · rw [fl_val_eq a b (by omega)]
    have h1 := flShift_scaled a b ha hb
    have h2 := roundHalfEven_upper (a * 2 ^ (flShift a b + log2 b)) (b * 2 ^ log2 a)
      (Nat.mul_pos hb (by positivity))
    have h3 : flMant a b * (b * 2 ^ log2 a) * 2 ^ 53
        ≤ a * 2 ^ (flShift a b + log2 b) * (2 ^ 53 + 1) := by
      unfold flMant
      nlinarith
    have h4 : ((flMant a b : ℚ) * (b * 2 ^ log2 a) * 2 ^ 53)
        ≤ (a : ℚ) * 2 ^ (flShift a b + log2 b) * (2 ^ 53 + 1) := by exact_mod_cast h3
    have hbq : (0 : ℚ) < b := by exact_mod_cast hb
    rw [div_le_iff₀ (by positivity)]
    have h5 : (a : ℚ) / b * (1 + 1 / 2 ^ 53) * 2 ^ (flShift a b + log2 b)
        = ((a : ℚ) * 2 ^ (flShift a b + log2 b) * (2 ^ 53 + 1)) / (b * 2 ^ 53) := by
      field_simp; ring
    rw [h5, le_div_iff₀ (by positivity)]
    linarith

theorem fl_val_ge_nat (a b n : Nat) (hb : 0 < b) (h : n * b ≤ a) (hlt : a < 2 ^ 53 * b) :
    (n : ℚ) ≤ (fl a b).val := by
  rcases Nat.eq_zero_or_pos a with ha | ha
  · subst ha
    have : n = 0 := by
      rcases Nat.eq_zero_or_pos n with h0 | h0
      · exact h0
      · have := Nat.mul_pos h0 hb; omega
    subst this; rw [fl_zero]; simp [Dbl.val]
  · rw [fl_val_eq a b (by omega)]
    have hs := flShift_ge a b ha hb hlt
    obtain ⟨t, ht⟩ := Nat.exists_eq_add_of_le hs
    have h1 : n * 2 ^ t ≤ flMant a b := by
      unfold flMant
      refine le_trans ?_ (roundHalfEven_ge _ _)
      rw [Nat.le_div_iff_mul_le (Nat.mul_pos hb (by positivity)), ht, pow_add]
      calc n * 2 ^ t * (b * 2 ^ log2 a) = (n * b) * (2 ^ log2 a * 2 ^ t) := by ring
        _ ≤ a * (2 ^ log2 a * 2 ^ t) := Nat.mul_le_mul_right _ h
    have h2 : ((n : ℚ) * 2 ^ t) ≤ (flMant a b : ℚ) := by exact_mod_cast h1
    rw [le_div_iff₀ (by positivity), ht, pow_add]
    nlinarith [show (0 : ℚ) < 2 ^ log2 a by positivity]

theorem fl_val_le_nat (a b n : Nat) (hb : 0 < b) (h : a ≤ n * b) (hlt : a < 2 ^ 53 * b) :
    (fl a b).val ≤ (n : ℚ) := by
  rcases Nat.eq_zero_or_pos a with ha | ha
  · subst ha; rw [fl_zero]; simp [Dbl.val]
  · rw [fl_val_eq a b (by omega)]
    have hs := flShift_ge a b ha hb hlt
    obtain ⟨t, ht⟩ := Nat.exists_eq_add_of_le hs
    have h1 : flMant a b ≤ n * 2 ^ t := by
      unfold flMant
      apply roundHalfEven_le_of_le _ _ _ (Nat.mul_pos hb (by positivity))
      rw [ht, pow_add]
      calc a * (2 ^ log2 a * 2 ^ t) ≤ (n * b) * (2 ^ log2 a * 2 ^ t) := Nat.mul_le_mul_right _ h
        _ = n * 2 ^ t * (b * 2 ^ log2 a) := by ring
    have h2 : (flMant a b : ℚ) ≤ ((n : ℚ) * 2 ^ t) := by exact_mod_cast h1
    rw [div_le_iff₀ (by positivity), ht, pow_add]
    nlinarith [show (0 : ℚ) < 2 ^ log2 a by positivity]


theorem ofInt_den_pos (n : Nat) : 0 < (Dbl.ofInt n).den := fl_den_pos n 1

theorem ofInt_val (n : Nat) (h : n < 2 ^ 53) : (Dbl.ofInt n).val = (n : ℚ) := by
  apply le_antisymm
  · exact fl_val_le_nat n 1 n Nat.one_pos (by omega) (by omega)
  · exact fl_val_ge_nat n 1 n Nat.one_pos (by omega) (by omega)

theorem mul_den_pos (x y : Dbl) : 0 < (Dbl.mul x y).den := fl_den_pos _ _

theorem div_den_pos (x y : Dbl) : 0 < (Dbl.div x y).den := fl_den_pos _ _

theorem val_nonneg (x : Dbl) : 0 ≤ x.val := by
  unfold Dbl.val; positivity

theorem val_mul_frac (x y : Dbl) :
    ((x.num * y.num : Nat) : ℚ) / ((x.den * y.den : Nat) : ℚ) = x.val * y.val := by
  unfold Dbl.val; push_cast; rw [mul_div_mul_comm]

theorem val_div_frac (x y : Dbl) :
    ((x.num * y.den : Nat) : ℚ) / ((x.den * y.num : Nat) : ℚ) = x.val / y.val := by
  unfold Dbl.val; push_cast; rw [div_div_div_eq]

theorem frac_le_iff (a b n : Nat) (hb : 0 < b) : (a : ℚ) / b ≤ n ↔ a ≤ n * b := by
  have hbq : (0 : ℚ) < b := by exact_mod_cast hb
  rw [div_le_iff₀ hbq]; exact_mod_cast Iff.rfl

theorem le_frac_iff (a b n : Nat) (hb : 0 < b) : (n : ℚ) ≤ (a : ℚ) / b ↔ n * b ≤ a := by
  have hbq : (0 : ℚ) < b := by exact_mod_cast hb
  rw [le_div_iff₀ hbq]; exact_mod_cast Iff.rfl

theorem frac_lt_iff (a b n : Nat) (hb : 0 < b) : (a : ℚ) / b < n ↔ a < n * b := by
  have hbq : (0 : ℚ) < b := by exact_mod_cast hb
  rw [div_lt_iff₀ hbq]; exact_mod_cast Iff.rfl

theorem mul_val_le (x y : Dbl) (hx : 0 < x.den) (hy : 0 < y.den) :
    (Dbl.mul x y).val ≤ x.val * y.val * (1 + 1 / 2 ^ 53) := by
  have h := fl_val_le (x.num * y.num) (x.den * y.den) (Nat.mul_pos hx hy)
  rwa [val_mul_frac] at h

theorem mul_val_exact (x y : Dbl) (hx : 0 < x.den) (hy : 0 < y.den) (n : Nat)
    (h : x.val * y.val = (n : ℚ)) (hn : n < 2 ^ 53) : (Dbl.mul x y).val = (n : ℚ) := by
  have hd : 0 < x.den * y.den := Nat.mul_pos hx hy
  have h1 : ((x.num * y.num : Nat) : ℚ) / ((x.den * y.den : Nat) : ℚ) = (n : ℚ) := by
    rw [val_mul_frac, h]
  have h2 : x.num * y.num ≤ n * (x.den * y.den) := (frac_le_iff _ _ _ hd).1 (le_of_eq h1)
  have h3 : n * (x.den * y.den) ≤ x.num * y.num := (le_frac_iff _ _ _ hd).1 (le_of_eq h1.symm)
  have h4 : x.num * y.num < 2 ^ 53 * (x.den * y.den) := by
    calc x.num * y.num ≤ n * (x.den * y.den) := h2
      _ < 2 ^ 53 * (x.den * y.den) := Nat.mul_lt_mul_of_pos_right hn hd
  apply le_antisymm
  · exact fl_val_le_nat _ _ n hd h2 h4
  · exact fl_val_ge_nat _ _ n hd h3 h4

theorem div_val_le (x y : Dbl) (hx : 0 < x.den) (hy : 0 < y.num) :
    (Dbl.div x y).val ≤ x.val / y.val * (1 + 1 / 2 ^ 53) := by
  have h := fl_val_le (x.num * y.den) (x.den * y.num) (Nat.mul_pos hx hy)
  rwa [val_div_frac] at h

theorem div_val_ge_nat (x y : Dbl) (hx : 0 < x.den) (hy : 0 < y.num) (n : Nat)
    (h : (n : ℚ) ≤ x.val / y.val) (hlt : x.val / y.val < (2 ^ 53 : Nat)) :
    (n : ℚ) ≤ (Dbl.div x y).val := by
  have hd : 0 < x.den * y.num := Nat.mul_pos hx hy
  rw [← val_div_frac] at h hlt
  exact fl_val_ge_nat _ _ n hd ((le_frac_iff _ _ _ hd).1 h) ((frac_lt_iff _ _ _ hd).1 hlt)

theorem toInt_le (x : Dbl) (hd : 0 < x.den) (n : Nat) (h : x.val < (n + 1 : Nat)) :
    x.toInt ≤ n := by
  have h1 : x.num < (n + 1) * x.den := (frac_lt_iff _ _ _ hd).1 h
  have h2 : x.num / x.den < n + 1 := (Nat.div_lt_iff_lt_mul hd).2 h1
  unfold Dbl.toInt; omega

theorem le_toInt (x : Dbl) (hd : 0 < x.den) (n : Nat) (h : (n : ℚ) ≤ x.val) :
    n ≤ x.toInt := by
  have h1 : n * x.den ≤ x.num := (le_frac_iff _ _ _ hd).1 h
  exact (Nat.le_div_iff_mul_le hd).2 h1

theorem num_pos_of_val_pos (x : Dbl) (h : 0 < x.val) : 0 < x.num := by
  rcases Nat.eq_zero_or_pos x.num with h0 | h0
  · unfold Dbl.val at h; rw [h0] at h; simp at h
  · exact h0

theorem min_le_fst (a b : Nat) : min a b ≤ a := by
  unfold min; split <;> omega

theorem le_min_of_le (a b n : Nat) (ha : n ≤ a) (hb : n ≤ b) : n ≤ min a b := by
  unfold min; split <;> omega

theorem sample_start_p_zero (N p : Nat) : sample_start_p 0 N p = 0 := by
  simp [sample_start_p, Dbl.ofInt, Dbl.mul, Dbl.toInt, fl_zero]

theorem sample_end_p_le (id N p : Nat) : sample_end_p id N p ≤ p := min_le_fst _ _

theorem sample_start_p_le (id N p : Nat) (hN : 0 < N) (hN53 : N < 2 ^ 53) (hp : p < 2 ^ 53)
    (hid : id < 2 ^ 53) (hb : id * p < 2 ^ 51) : sample_start_p id N p ≤ id * p / N := by
  unfold sample_start_p
  apply toInt_le _ (mul_den_pos _ _)
  have hNq : (0 : ℚ) < N := by exact_mod_cast hN
  have hvN : (Dbl.ofInt N).val = N := ofInt_val N hN53
  have hvp : (Dbl.ofInt p).val = p := ofInt_val p hp
  have hvid : (Dbl.ofInt id).val = id := ofInt_val id hid
  have hr : (Dbl.div (Dbl.ofInt p) (Dbl.ofInt N)).val ≤ (p : ℚ) / N * (1 + 1 / 2 ^ 53) := by
    have := div_val_le (Dbl.ofInt p) (Dbl.ofInt N) (ofInt_den_pos p)
      (num_pos_of_val_pos _ (by rw [hvN]; exact hNq))
    rwa [hvp, hvN] at this
  have hs := mul_val_le (Dbl.ofInt id) (Dbl.div (Dbl.ofInt p) (Dbl.ofInt N))
    (ofInt_den_pos id) (div_den_pos _ _)
  rw [hvid] at hs
  have hidq : (0 : ℚ) ≤ id := by positivity
  have hs2 : (Dbl.mul (Dbl.ofInt id) (Dbl.div (Dbl.ofInt p) (Dbl.ofInt N))).val
      ≤ (id : ℚ) * ((p : ℚ) / N * (1 + 1 / 2 ^ 53)) * (1 + 1 / 2 ^ 53) := by
    refine le_trans hs ?_
    apply mul_le_mul_of_nonneg_right _ (by positivity)
    exact mul_le_mul_of_nonneg_left hr hidq
  refine lt_of_le_of_lt hs2 ?_
  have h1 : id * p < (id * p / N + 1) * N := by
    have := Nat.lt_succ_self (id * p / N)
    exact (Nat.div_lt_iff_lt_mul hN).1 this
  have h2 : ((id * p + 1 : Nat) : ℚ) ≤ ((id * p / N + 1 : Nat) : ℚ) * N := by
    exact_mod_cast h1
  have h3 : ((id * p : Nat) : ℚ) < 2 ^ 51 := by exact_mod_cast hb
  push_cast at h2 h3
  have h4 : (id : ℚ) * ((p : ℚ) / N * (1 + 1 / 2 ^ 53)) * (1 + 1 / 2 ^ 53)
      = ((id : ℚ) * p * ((1 + 1 / 2 ^ 53) * (1 + 1 / 2 ^ 53))) / N := by
    field_simp; ring
  rw [h4, div_lt_iff₀ hNq]
  have h5 : (0 : ℚ) ≤ (id : ℚ) * p := by positivity
  push_cast
  nlinarith

theorem sample_end_p_ge (id N p : Nat) (hN : 0 < N) (hid : id + 1 ≤ N) (hN53 : N < 2 ^ 53)
    (hp : p < 2 ^ 53) (hb : (id + 1) * p < 2 ^ 53) :
    (id + 1) * p / N ≤ sample_end_p id N p := by
  unfold sample_end_p
  apply le_min_of_le
  · calc (id + 1) * p / N ≤ N * p / N := Nat.div_le_div_right (Nat.mul_le_mul_right p hid)
      _ = p := Nat.mul_div_cancel_left p hN
  · apply le_toInt _ (div_den_pos _ _)
    have hNq : (0 : ℚ) < N := by exact_mod_cast hN
    have hvN : (Dbl.ofInt N).val = N := ofInt_val N hN53
    have hvp : (Dbl.ofInt p).val = p := ofInt_val p hp
    have hvid : (Dbl.ofInt (id + 1)).val = ((id + 1 : Nat) : ℚ) := ofInt_val (id + 1) (by omega)
    have hm : (Dbl.mul (Dbl.ofInt (id + 1)) (Dbl.ofInt p)).val = (((id + 1) * p : Nat) : ℚ) := by
      apply mul_val_exact _ _ (ofInt_den_pos _) (ofInt_den_pos _) _ _ hb
      rw [hvid, hvp]; push_cast; ring
    apply div_val_ge_nat _ _ (mul_den_pos _ _) (num_pos_of_val_pos _ (by rw [hvN]; exact hNq))
    · rw [hm, hvN]
      exact (le_frac_iff _ _ _ hN).2 (Nat.div_mul_le_self _ _)
    · rw [hm, hvN]
      apply (frac_lt_iff _ _ _ hN).2
      calc (id + 1) * p < 2 ^ 53 := hb
        _ ≤ 2 ^ 53 * N := Nat.le_mul_of_pos_right _ hN

/-! ## Known binary64 values, as a check of the model -/

set_option maxRecDepth 100000 in
/-- The `double` nearest to one third is `0x3FD5555555555555`. -/
theorem fl_one_third : fl 1 3 = ⟨6004799503160661, 2 ^ 54⟩ := by decide

set_option maxRecDepth 100000 in
/-- The `double` nearest to one tenth is `0x3FB999999999999A`. -/
theorem fl_one_tenth : fl 1 10 = ⟨7205759403792794, 2 ^ 56⟩ := by decide

set_option maxRecDepth 100000 in
/-- The product `7 * (122.0 / 14)` is the `double` just below `61`, while
`7 * 122.0 / 14` is `61` exactly. -/
theorem seven_times_quotient :
    Dbl.mul (Dbl.ofInt 7) (Dbl.div (Dbl.ofInt 122) (Dbl.ofInt 14))
        = ⟨8584986789675007, 2 ^ 47⟩
      ∧ Dbl.div (Dbl.mul (Dbl.ofInt 7) (Dbl.ofInt 122)) (Dbl.ofInt 14)
        = ⟨8584986789675008, 2 ^ 47⟩
      ∧ 61 * 2 ^ 47 = 8584986789675008 := by
  decide

/-! ## Loops that write one cell per iteration -/

theorem forLoop_empty {σ : Type} (lo hi : Nat) (body : Nat → σ → σ) (s : σ) (h : hi ≤ lo) :
    forLoop lo hi body s = s := by
  unfold forLoop
  rw [Nat.sub_eq_zero_of_le h]
  rfl

theorem forLoop_succ {σ : Type} (lo hi : Nat) (body : Nat → σ → σ) (s : σ) (h : lo ≤ hi) :
    forLoop lo (hi + 1) body s = body hi (forLoop lo hi body s) := by
  unfold forLoop
  have h1 : hi + 1 - lo = (hi - lo) + 1 := by omega
  have h2 : lo + (hi - lo) = hi := by omega
  rw [h1, List.range'_1_concat, List.foldl_append, h2]
  rfl

theorem forLoop_set_row (i q : Nat) (f : Nat → Nat) (g : Grid) (a b : Nat) :
    forLoop 0 q (fun j g => Grid.set g i j (f j)) g a b
      = if a = i ∧ b < q then f b else g a b := by
  induction q with
  | zero => simp [forLoop_empty]
  | succ n ih =>
    rw [forLoop_succ _ _ _ _ (Nat.zero_le n)]
    simp only [Grid.set, ih]
    by_cases h1 : a = i ∧ b = n
    · obtain ⟨rfl, rfl⟩ := h1; simp
    · rw [if_neg h1]
      by_cases h2 : a = i ∧ b < n
      · rw [if_pos h2, if_pos ⟨h2.1, by omega⟩]
      · rw [if_neg h2, if_neg]
        intro h3; apply h1; refine ⟨h3.1, ?_⟩
        by_contra h4; exact h2 ⟨h3.1, by omega⟩

theorem forLoop_set_col (p q : Nat) (f : Nat → Nat) (g : Grid) (a b : Nat) :
    forLoop 0 p (fun i g => Grid.set g i q (f i)) g a b
      = if a < p ∧ b = q then f a else g a b := by
  induction p with
  | zero => simp [forLoop_empty]
  | succ n ih =>
    rw [forLoop_succ _ _ _ _ (Nat.zero_le n)]
    simp only [Grid.set, ih]
    by_cases h1 : a = n ∧ b = q
    · obtain ⟨rfl, rfl⟩ := h1; simp
    · rw [if_neg h1]
      by_cases h2 : a < n ∧ b = q
      · rw [if_pos h2, if_pos ⟨by omega, h2.2⟩]
      · rw [if_neg h2, if_neg]
        intro h3; apply h1; refine ⟨?_, h3.2⟩
        by_contra h4; exact h2 ⟨by omega, h3.2⟩

theorem forLoop_set_rows (s e q : Nat) (f : Nat → Nat → Nat) (g : Grid) (a b : Nat) :
    forLoop s e (fun i g => forLoop 0 q (fun j g => Grid.set g i j (f i j)) g) g a b
      = if s ≤ a ∧ a < e ∧ b < q then f a b else g a b := by
  induction e with
  | zero => simp [forLoop_empty]
  | succ n ih =>
    rcases Nat.lt_or_ge n s with h | h
    · rw [forLoop_empty _ _ _ _ (by omega), if_neg]
      omega
    · rw [forLoop_succ _ _ _ _ h, forLoop_set_row, ih]
      by_cases h1 : a = n ∧ b < q
      · obtain ⟨rfl, h1⟩ := h1
        rw [if_pos ⟨rfl, h1⟩, if_pos ⟨h, by omega, h1⟩]
      · rw [if_neg h1]
        by_cases h2 : s ≤ a ∧ a < n ∧ b < q
        · rw [if_pos h2, if_pos ⟨h2.1, by omega, h2.2.2⟩]
        · rw [if_neg h2, if_neg]
          intro h3; apply h1; refine ⟨?_, h3.2.2⟩
          by_contra h4; exact h2 ⟨h3.1, by omega, h3.2.2⟩

theorem sample_apply (id N : Nat) (img : ppm_image) (g : Grid) (a b : Nat) :
    sample id N img g a b =
      if id + 1 = N ∧ a = img.x / STEP ∧ b < img.y / STEP then
        grid_value (img.data ((img.x - 1) * img.y + b * STEP))
      else if id + 1 = N ∧ a < img.x / STEP ∧ b = img.y / STEP then
        grid_value (img.data (a * STEP * img.y + img.x - 1))
      else if sample_start_p id N (img.x / STEP) ≤ a ∧ a < sample_end_p id N (img.x / STEP)
          ∧ b < img.y / STEP then
        grid_value (img.data (a * STEP * img.y + b * STEP))
      else g a b := by
  unfold sample
  by_cases hid : id + 1 = N
  · simp only [hid, if_true, true_and]
    rw [forLoop_set_row (img.x / STEP) (img.y / STEP)
      (fun j => grid_value (img.data ((img.x - 1) * img.y + j * STEP)))]
    rw [forLoop_set_col (img.x / STEP) (img.y / STEP)
      (fun i => grid_value (img.data (i * STEP * img.y + img.x - 1)))]
    rw [forLoop_set_rows _ _ (img.y / STEP)
      (fun i j => grid_value (img.data (i * STEP * img.y + j * STEP)))]
  · simp only [hid, if_false, false_and]
    rw [forLoop_set_rows _ _ (img.y / STEP)
      (fun i j => grid_value (img.data (i * STEP * img.y + j * STEP)))]

/-! ## Coverage of the row ranges -/

theorem sample_cover (N p : Nat) (hN : 0 < N) (hb : N * p < 2 ^ 51) (i : Nat) (hi : i < p) :
    ∃ id, id < N ∧ sample_start_p id N p ≤ i ∧ i < sample_end_p id N p := by
  have hp : 0 < p := by omega
  have hN51 : N < 2 ^ 51 := lt_of_le_of_lt (Nat.le_mul_of_pos_right N hp) hb
  have hp51 : p < 2 ^ 51 := lt_of_le_of_lt (Nat.le_mul_of_pos_left p hN) hb
  by_contra hc
  have hnot : ∀ id, id < N → sample_start_p id N p ≤ i → sample_end_p id N p ≤ i := by
    intro id hid hs
    by_contra h
    exact hc ⟨id, hid, hs, by omega⟩
  have hall : ∀ id, id < N → sample_start_p id N p ≤ i := by
    intro id
    induction id with
    | zero => intro _; rw [sample_start_p_zero]; exact Nat.zero_le _
    | succ k ih =>
      intro hk
      have hk1 : (k + 1) * p < 2 ^ 51 :=
        lt_of_le_of_lt (Nat.mul_le_mul_right p (by omega)) hb
      have h1 := hnot k (by omega) (ih (by omega))
      have h2 := sample_end_p_ge k N p hN (by omega) (by omega) (by omega) (by omega)
      have h3 := sample_start_p_le (k + 1) N p hN (by omega) (by omega) (by omega) hk1
      omega
  have hlast := hnot (N - 1) (by omega) (hall (N - 1) (by omega))
  have h4 := sample_end_p_ge (N - 1) N p hN (by omega) (by omega) (by omega) (by
    have : N - 1 + 1 = N := by omega
    rw [this]; omega)
  have h5 : N - 1 + 1 = N := by omega
  rw [h5, Nat.mul_div_cancel_left p hN] at h4
  omega

/-! ## The sample phase, cell by cell -/

theorem sample_fold_interior (N : Nat) (img : ppm_image) (ids : List Nat) (g : Grid)
    (a b : Nat) (ha : a < img.x / STEP) (hb : b < img.y / STEP) :
    (ids.foldl (fun g id => sample id N img g) g) a b =
      if ∃ id ∈ ids, sample_start_p id N (img.x / STEP) ≤ a
          ∧ a < sample_end_p id N (img.x / STEP) then
        grid_value (img.data (a * STEP * img.y + b * STEP))
      else g a b := by
  induction ids generalizing g with
  | nil => simp
  | cons id rest ih =>
    rw [List.foldl_cons, ih]
    by_cases h1 : ∃ id ∈ rest, sample_start_p id N (img.x / STEP) ≤ a
        ∧ a < sample_end_p id N (img.x / STEP)
    · obtain ⟨w, hw, hr⟩ := h1
      rw [if_pos ⟨w, hw, hr⟩, if_pos ⟨w, List.mem_cons_of_mem _ hw, hr⟩]
    · rw [if_neg h1, sample_apply, if_neg (by omega), if_neg (by omega)]
      by_cases h2 : sample_start_p id N (img.x / STEP) ≤ a
          ∧ a < sample_end_p id N (img.x / STEP)
      · rw [if_pos ⟨h2.1, h2.2, hb⟩, if_pos ⟨id, List.mem_cons_self _ _, h2⟩]
      · rw [if_neg (fun h => h2 ⟨h.1, h.2.1⟩), if_neg]
        rintro ⟨w, hw, hr⟩
        rcases List.mem_cons.1 hw with rfl | hw
        · exact h2 hr
        · exact h1 ⟨w, hw, hr⟩

theorem sample_fold_frame (N : Nat) (img : ppm_image) (ids : List Nat) (g : Grid)
    (a b : Nat) (h : img.x / STEP ≤ a ∧ img.y / STEP ≤ b ∨ img.x / STEP < a ∨ img.y / STEP < b) :
    (ids.foldl (fun g id => sample id N img g) g) a b = g a b := by
  induction ids generalizing g with
  | nil => simp
  | cons id rest ih =>
    rw [List.foldl_cons, ih, sample_apply]
    have he := sample_end_p_le id N (img.x / STEP)
    rw [if_neg (by omega), if_neg (by omega), if_neg (by omega)]

theorem sample_all_interior (N : Nat) (img : ppm_image) (g : Grid) (hN : 0 < N)
    (hb : N * (img.x / STEP) < 2 ^ 51) (a b : Nat) (ha : a < img.x / STEP)
    (hq : b < img.y / STEP) :
    sample_all N img g a b = grid_value (img.data (a * STEP * img.y + b * STEP)) := by
  unfold sample_all
  rw [sample_fold_interior N img _ g a b ha hq, if_pos]
  obtain ⟨id, hid, hr⟩ := sample_cover N (img.x / STEP) hN hb a ha
  exact ⟨id, List.mem_range.2 hid, hr⟩

theorem sample_all_frame (N : Nat) (img : ppm_image) (g : Grid) (a b : Nat)
    (h : img.x / STEP ≤ a ∧ img.y / STEP ≤ b ∨ img.x / STEP < a ∨ img.y / STEP < b) :
    sample_all N img g a b = g a b :=
  sample_fold_frame N img _ g a b h

/-! ## Blocks of pixels -/

theorem forLoop_setPixel_run (base n off : Nat) (src d : Nat → ppm_pixel) (k : Nat) :
    forLoop 0 n (fun j d => setPixel d (base + j) (src (off + j))) d k
      = if base ≤ k ∧ k < base + n then src (off + (k - base)) else d k := by
  induction n with
  | zero =>
    rw [forLoop_empty _ _ _ _ (le_refl 0), if_neg]
    omega
  | succ m ih =>
    rw [forLoop_succ _ _ _ _ (Nat.zero_le m)]
    simp only [setPixel, ih]
    by_cases h1 : k = base + m
    · subst h1
      rw [if_pos rfl, if_pos ⟨by omega, by omega⟩]
      congr 2; omega
    · rw [if_neg h1]
      by_cases h2 : base ≤ k ∧ k < base + m
      · rw [if_pos h2, if_pos ⟨h2.1, by omega⟩]
      · rw [if_neg h2, if_neg]
        intro h3; exact h2 ⟨h3.1, by omega⟩

theorem block_index (R r y cy k : Nat) (hy : y + cy ≤ R) :
    (r * R + y ≤ k ∧ k < r * R + y + cy) ↔ (k / R = r ∧ y ≤ k % R ∧ k % R < y + cy) := by
  constructor
  · rintro ⟨h1, h2⟩
    have hR : 0 < R := by omega
    have hdiv : k / R = r := by
      apply Nat.div_eq_of_lt_le
      · omega
      · rw [Nat.succ_mul]; omega
    have hmod := Nat.div_add_mod k R
    rw [hdiv, Nat.mul_comm R r] at hmod
    exact ⟨hdiv, by omega, by omega⟩
  · rintro ⟨h1, h2, h3⟩
    have hmod := Nat.div_add_mod k R
    rw [h1, Nat.mul_comm R r] at hmod
    exact ⟨by omega, by omega⟩

theorem stamp_rows (cx cy n R x y : Nat) (src d : Nat → ppm_pixel) (k : Nat)
    (hy : y + cy ≤ R) :
    forLoop 0 n
        (fun i d => forLoop 0 cy
          (fun j d => setPixel d ((x + i) * R + y + j) (src (cx * i + j))) d) d k
      = if x ≤ k / R ∧ k / R < x + n ∧ y ≤ k % R ∧ k % R < y + cy then
          src (cx * (k / R - x) + (k % R - y))
        else d k := by
  induction n with
  | zero =>
    rw [forLoop_empty _ _ _ _ (le_refl 0), if_neg]
    omega
  | succ m ih =>
    rw [forLoop_succ _ _ _ _ (Nat.zero_le m), forLoop_setPixel_run, ih]
    by_cases h1 : (x + m) * R + y ≤ k ∧ k < (x + m) * R + y + cy
    · rw [if_pos h1]
      have h2 := (block_index R (x + m) y cy k hy).1 h1
      have hmod := Nat.div_add_mod k R
      rw [h2.1, Nat.mul_comm R (x + m)] at hmod
      rw [if_pos ⟨by omega, by omega, h2.2.1, h2.2.2⟩, h2.1]
      congr 2
      have : x + m - x = m := by omega
      rw [this]; omega
    · rw [if_neg h1]
      have h2 : ¬ (k / R = x + m ∧ y ≤ k % R ∧ k % R < y + cy) :=
        fun h => h1 ((block_index R (x + m) y cy k hy).2 h)
      by_cases h3 : x ≤ k / R ∧ k / R < x + m ∧ y ≤ k % R ∧ k % R < y + cy
      · rw [if_pos h3, if_pos ⟨h3.1, by omega, h3.2.2⟩]
      · rw [if_neg h3, if_neg]
        intro h4; apply h2
        refine ⟨?_, h4.2.2⟩
        by_contra h5; exact h3 ⟨h4.1, by omega, h4.2.2⟩

theorem stamp_apply (c : ppm_image) (R x y : Nat) (d : Nat → ppm_pixel) (k : Nat)
    (hy : y + c.y ≤ R) :
    stamp c R x y d k
      = if x ≤ k / R ∧ k / R < x + c.x ∧ y ≤ k % R ∧ k % R < y + c.y then
          c.data (c.x * (k / R - x) + (k % R - y))
        else d k :=
  stamp_rows c.x c.y c.x R x y c.data d k hy

theorem march_row (cm : Nat → ppm_image) (grid : Grid) (R i n : Nat) (d : Nat → ppm_pixel)
    (k : Nat) (hn : n * STEP ≤ R)
    (hst : ∀ j, j < n → (cm (config_k grid i j)).x = STEP ∧ (cm (config_k grid i j)).y = STEP) :
    forLoop 0 n (fun j d => stamp (cm (config_k grid i j)) R (i * STEP) (j * STEP) d) d k
      = if i * STEP ≤ k / R ∧ k / R < i * STEP + STEP ∧ k % R < n * STEP then
          stamped cm grid R k
        else d k := by
  induction n with
  | zero =>
    rw [forLoop_empty _ _ _ _ (le_refl 0), if_neg]
    omega
  | succ m ih =>
    have hm := hst m (by omega)
    have hS : STEP = 8 := rfl
    rw [forLoop_succ _ _ _ _ (Nat.zero_le m),
      stamp_apply _ _ _ _ _ _ (by rw [hm.2]; rw [hS] at hn ⊢; omega),
      ih (by rw [hS] at hn ⊢; omega) (fun j hj => hst j (by omega)), hm.1, hm.2]
    rw [hS] at hn ⊢
    by_cases h1 : i * 8 ≤ k / R ∧ k / R < i * 8 + 8 ∧ m * 8 ≤ k % R ∧ k % R < m * 8 + 8
    · rw [if_pos h1, if_pos ⟨h1.1, h1.2.1, by omega⟩]
      unfold stamped
      rw [hS]
      have e1 : k / R / 8 = i := by omega
      have e2 : k % R / 8 = m := by omega
      rw [e1, e2]
      congr 1
      omega
    · rw [if_neg h1]
      by_cases h2 : i * 8 ≤ k / R ∧ k / R < i * 8 + 8 ∧ k % R < m * 8
      · rw [if_pos h2, if_pos ⟨h2.1, h2.2.1, by omega⟩]
      · rw [if_neg h2, if_neg]
        intro h3
        by_cases h4 : k % R < m * 8
        · exact h2 ⟨h3.1, h3.2.1, h4⟩
        · exact h1 ⟨h3.1, h3.2.1, by omega, by omega⟩

theorem march_rows (cm : Nat → ppm_image) (grid : Grid) (R s e q : Nat) (d : Nat → ppm_pixel)
    (k : Nat) (hq : q * STEP ≤ R)
    (hst : ∀ i j, i < e → j < q →
      (cm (config_k grid i j)).x = STEP ∧ (cm (config_k grid i j)).y = STEP) :
    forLoop s e
        (fun i d =>
          forLoop 0 q (fun j d => stamp (cm (config_k grid i j)) R (i * STEP) (j * STEP) d) d)
        d k
      = if s * STEP ≤ k / R ∧ k / R < e * STEP ∧ k % R < q * STEP then
          stamped cm grid R k
        else d k := by
  have hS : STEP = 8 := rfl
  induction e with
  | zero =>
    rw [forLoop_empty _ _ _ _ (Nat.zero_le s), if_neg]
    omega
  | succ n ih =>
    rcases Nat.lt_or_ge n s with h | h
    · rw [forLoop_empty _ _ _ _ (by omega), if_neg]
      rw [hS]; omega
    · rw [forLoop_succ _ _ _ _ h, march_row cm grid R n q _ k hq (fun j hj => hst n j (by omega) hj),
        ih (fun i j hi hj => hst i j (by omega) hj)]
      rw [hS]
      by_cases h1 : n * 8 ≤ k / R ∧ k / R < n * 8 + 8 ∧ k % R < q * 8
      · rw [if_pos h1, if_pos ⟨by omega, by omega, h1.2.2⟩]
      · rw [if_neg h1]
        by_cases h2 : s * 8 ≤ k / R ∧ k / R < n * 8 ∧ k % R < q * 8
        · rw [if_pos h2, if_pos ⟨h2.1, by omega, h2.2.2⟩]
        · rw [if_neg h2, if_neg]
          intro h3
          by_cases h4 : k / R < n * 8
          · exact h2 ⟨h3.1, h4, h3.2.2⟩
          · exact h1 ⟨by omega, by omega, h3.2.2⟩

/-! ## The march phase, pixel by pixel -/

theorem march_end_le (id N p : Nat) : march_end id N p ≤ p := min_le_fst _ _

theorem march_data (id N : Nat) (cm : Nat → ppm_image) (grid : Grid) (img : ppm_image) (k : Nat)
    (hst : ∀ i j, i < img.x / STEP → j < img.y / STEP →
      (cm (config_k grid i j)).x = STEP ∧ (cm (config_k grid i j)).y = STEP) :
    (march id N cm grid img).data k
      = if march_start id N (img.x / STEP) * STEP ≤ k / img.y
            ∧ k / img.y < march_end id N (img.x / STEP) * STEP
            ∧ k % img.y < img.y / STEP * STEP then
          stamped cm grid img.y k
        else img.data k := by
  unfold march
  exact march_rows cm grid img.y _ _ (img.y / STEP) img.data k (Nat.div_mul_le_self _ _)
    (fun i j hi hj => hst i j (lt_of_lt_of_le hi (march_end_le id N _)) hj)

theorem march_fold (N : Nat) (cm : Nat → ppm_image) (grid : Grid) (X Y : Nat)
    (hst : ∀ i j, i < X / STEP → j < Y / STEP →
      (cm (config_k grid i j)).x = STEP ∧ (cm (config_k grid i j)).y = STEP)
    (ids : List Nat) (img : ppm_image) (hx : img.x = X) (hy : img.y = Y) (k : Nat) :
    (ids.foldl (fun im id => march id N cm grid im) img).data k
      = if ∃ id ∈ ids, march_start id N (X / STEP) * STEP ≤ k / Y
            ∧ k / Y < march_end id N (X / STEP) * STEP ∧ k % Y < Y / STEP * STEP then
          stamped cm grid Y k
        else img.data k := by
  induction ids generalizing img with
  | nil => simp
  | cons id rest ih =>
    rw [List.foldl_cons, ih (march id N cm grid img) hx hy]
    by_cases h1 : ∃ id ∈ rest, march_start id N (X / STEP) * STEP ≤ k / Y
        ∧ k / Y < march_end id N (X / STEP) * STEP ∧ k % Y < Y / STEP * STEP
    · obtain ⟨w, hw, hr⟩ := h1
      rw [if_pos ⟨w, hw, hr⟩, if_pos ⟨w, List.mem_cons_of_mem _ hw, hr⟩]
    · rw [if_neg h1, march_data id N cm grid img k (by rw [hx, hy]; exact hst), hx, hy]
      by_cases h2 : march_start id N (X / STEP) * STEP ≤ k / Y
          ∧ k / Y < march_end id N (X / STEP) * STEP ∧ k % Y < Y / STEP * STEP
      · rw [if_pos h2, if_pos ⟨id, List.mem_cons_self _ _, h2⟩]
      · rw [if_neg h2, if_neg]
        rintro ⟨w, hw, hr⟩
        rcases List.mem_cons.1 hw with rfl | hw
        · exact h2 hr
        · exact h1 ⟨w, hw, hr⟩

theorem march_fold_dims (N : Nat) (cm : Nat → ppm_image) (grid : Grid) (ids : List Nat)
    (img : ppm_image) :
    (ids.foldl (fun im id => march id N cm grid im) img).x = img.x
      ∧ (ids.foldl (fun im id => march id N cm grid im) img).y = img.y := by
  induction ids generalizing img with
  | nil => exact ⟨rfl, rfl⟩
  | cons id rest ih =>
    rw [List.foldl_cons]
    exact ih (march id N cm grid img)

theorem config_k_lt (grid : Grid) (hg : ∀ a b, grid a b = 0 ∨ grid a b = 1) (i j : Nat) :
    config_k grid i j < CONTOUR_CONFIG_COUNT := by
  unfold config_k CONTOUR_CONFIG_COUNT
  rcases hg i j with h1 | h1 <;> rcases hg i (j + 1) with h2 | h2 <;>
    rcases hg (i + 1) (j + 1) with h3 | h3 <;> rcases hg (i + 1) j with h4 | h4 <;>
    rw [h1, h2, h3, h4] <;> decide

theorem block_div_mod (R r c : Nat) (hc : c < R) : (r * R + c) / R = r ∧ (r * R + c) % R = c := by
  have h := (block_index R r 0 R (r * R + c) (by omega)).1 ⟨by omega, by omega⟩
  have hmod := Nat.div_add_mod (r * R + c) R
  rw [h.1, Nat.mul_comm R r] at hmod
  exact ⟨h.1, by omega⟩

theorem row_bound (N : Nat) (img : ppm_image) (hN31 : N < 2 ^ 31) (hx : img.x ≤ RESCALE_X) :
    N * (img.x / STEP) < 2 ^ 51 := by
  have h1 : img.x / STEP ≤ 256 := by
    unfold STEP; unfold RESCALE_X at hx; omega
  calc N * (img.x / STEP) ≤ N * 256 := Nat.mul_le_mul_left N h1
    _ < 2 ^ 51 := by omega

theorem march_all_block (N : Nat) (cm : Nat → ppm_image) (grid : Grid) (img : ppm_image)
    (hN : 0 < N) (hb : N * (img.x / STEP) < 2 ^ 51)
    (hst : ∀ i j, i < img.x / STEP → j < img.y / STEP →
      (cm (config_k grid i j)).x = STEP ∧ (cm (config_k grid i j)).y = STEP)
    (i j a b : Nat) (hi : i < img.x / STEP) (hj : j < img.y / STEP) (ha : a < STEP)
    (hb8 : b < STEP) :
    (march_all N cm grid img).data ((i * STEP + a) * img.y + (j * STEP + b))
      = (cm (config_k grid i j)).data (a * STEP + b) := by
  unfold march_all
  have hS : STEP = 8 := rfl
  have hc : j * STEP + b < img.y := by
    have := Nat.div_mul_le_self img.y STEP
    rw [hS] at this hj ha hb8 ⊢; omega
  obtain ⟨e1, e2⟩ := block_div_mod img.y (i * STEP + a) (j * STEP + b) hc
  obtain ⟨id, hid, hs, he⟩ := sample_cover N (img.x / STEP) hN hb i hi
  rw [march_fold N cm grid img.x img.y hst _ img rfl rfl, if_pos]
  · unfold stamped
    rw [e1, e2]
    have f1 : (i * STEP + a) / STEP = i := by rw [hS] at ha ⊢; omega
    have f2 : (j * STEP + b) / STEP = j := by rw [hS] at hb8 ⊢; omega
    have f3 : (i * STEP + a) % STEP = a := by rw [hS] at ha ⊢; omega
    have f4 : (j * STEP + b) % STEP = b := by rw [hS] at hb8 ⊢; omega
    rw [f1, f2, f3, f4, Nat.mul_comm STEP a]
  · refine ⟨id, List.mem_range.2 hid, ?_⟩
    rw [e1, e2]
    have hs' : march_start id N (img.x / STEP) ≤ i := hs
    have he' : i < march_end id N (img.x / STEP) := he
    rw [hS] at ha hb8 hj hs' he' ⊢
    refine ⟨by omega, by omega, by omega⟩

/-! ## The rescale phase when nothing is to be done -/

theorem rescale_image_same (sb : ppm_image → Nat × Nat → Nat × Nat → ppm_pixel) (id N : Nat)
    (image : ppm_image) : rescale_image sb id N image image = image := by
  unfold rescale_image
  rw [if_pos ⟨rfl, rfl⟩]

theorem rescale_fold_same (sb : ppm_image → Nat × Nat → Nat × Nat → ppm_pixel) (N : Nat)
    (image : ppm_image) (ids : List Nat) :
    ids.foldl (fun s id => rescale_image sb id N image s) image = image := by
  induction ids with
  | nil => rfl
  | cons id rest ih => rw [List.foldl_cons, rescale_image_same, ih]

theorem rescale_end_eq (id N x : Nat) :
    rescale_end id N x = min (rescale_start (id + 1) N x) x := rfl

/-! ## The binary grid after the sample phase -/

theorem grid_value_eq_one (px : ppm_pixel)
    (h : px.red < 256 ∧ px.green < 256 ∧ px.blue < 256) :
    (grid_value px = 1 ↔ (px.red + px.green + px.blue) / 3 ≤ SIGMA)
      ∧ (grid_value px = 0 ↔ ¬ (px.red + px.green + px.blue) / 3 ≤ SIGMA) := by
  have h1 : (px.red + px.green + px.blue) / 3 % 256 = (px.red + px.green + px.blue) / 3 := by
    omega
  unfold grid_value curr_color
  rw [h1]
  by_cases h2 : (px.red + px.green + px.blue) / 3 > SIGMA
  · rw [if_pos h2]
    constructor
    · constructor
      · intro h3; exact absurd h3 (by decide)
      · intro h3; omega
    · constructor
      · intro _; omega
      · intro _; rfl
  · rw [if_neg h2]
    constructor
    · constructor
      · intro _; omega
      · intro _; rfl
    · constructor
      · intro h3; exact absurd h3 (by decide)
      · intro h3; omega

/-! ## Loop invariants and traces -/

theorem forLoop_invariant {σ : Type} (Inv : σ → Prop) (lo hi : Nat) (body : Nat → σ → σ)
    (s : σ) (h0 : Inv s)
    (hstep : ∀ i s, lo ≤ i → i < hi → Inv s → Inv (body i s)) :
    Inv (forLoop lo hi body s) := by
  induction hi with
  | zero => rw [forLoop_empty _ _ _ _ (Nat.zero_le lo)]; exact h0
  | succ n ih =>
    rcases Nat.lt_or_ge n lo with h | h
    · rw [forLoop_empty _ _ _ _ (by omega)]; exact h0
    · rw [forLoop_succ _ _ _ _ h]
      exact hstep n _ h (Nat.lt_succ_self n)
        (ih (fun i s h1 h2 hs => hstep i s h1 (by omega) hs))

theorem forLoop_proj {σ τ : Type} (f : σ → τ) (lo hi : Nat) (body : Nat → σ → σ)
    (body' : Nat → τ → τ) (h : ∀ i s, f (body i s) = body' i (f s)) (s : σ) :
    f (forLoop lo hi body s) = forLoop lo hi body' (f s) := by
  unfold forLoop
  induction List.range' lo (hi - lo) generalizing s with
  | nil => rfl
  | cons i rest ih => rw [List.foldl_cons, List.foldl_cons, ih, h]

theorem sample_rows_grid (id N : Nat) (img : ppm_image) (s : sample_trace) :
    (sample_rows id N img s).grid
      = forLoop (sample_start_p id N (img.x / STEP)) (sample_end_p id N (img.x / STEP))
          (fun i g =>
            forLoop 0 (img.y / STEP)
              (fun j g => g.set i j (grid_value (img.data (i * STEP * img.y + j * STEP))))
              g)
          s.grid := by
  unfold sample_rows
  apply forLoop_proj sample_trace.grid
  intro i s
  apply forLoop_proj sample_trace.grid
  intro j s
  rfl

theorem sample_boundary_grid (img : ppm_image) (s : sample_trace) :
    (sample_boundary img s).grid
      = forLoop 0 (img.y / STEP)
          (fun j g =>
            g.set (img.x / STEP) j (grid_value (img.data ((img.x - 1) * img.y + j * STEP))))
          (forLoop 0 (img.x / STEP)
            (fun i g =>
              g.set i (img.y / STEP) (grid_value (img.data (i * STEP * img.y + img.x - 1))))
            s.grid) := by
  unfold sample_boundary
  rw [forLoop_proj sample_trace.grid 0 (img.y / STEP) _
    (fun j g =>
      g.set (img.x / STEP) j (grid_value (img.data ((img.x - 1) * img.y + j * STEP))))
    (fun j s => rfl)]
  rw [forLoop_proj sample_trace.grid 0 (img.x / STEP) _
    (fun i g =>
      g.set i (img.y / STEP) (grid_value (img.data (i * STEP * img.y + img.x - 1))))
    (fun i s => rfl)]

/-- Dropping the record of accesses from `sample_traced` gives `sample`. -/
theorem sample_traced_grid (id N : Nat) (img : ppm_image) (s : sample_trace) :
    (sample_traced id N img s).grid = sample id N img s.grid := by
  unfold sample_traced sample
  by_cases h : id + 1 = N
  · simp only [h, if_true]
    rw [sample_boundary_grid, sample_rows_grid]
  · simp only [h, if_false]
    rw [sample_rows_grid]

theorem sample_rows_writes (id N : Nat) (img : ppm_image) (s : sample_trace)
    (P : Nat × Nat → Prop) (h0 : ∀ c ∈ s.writes, P c)
    (hP : ∀ i j, sample_start_p id N (img.x / STEP) ≤ i →
      i < sample_end_p id N (img.x / STEP) → j < img.y / STEP → P (i, j)) :
    ∀ c ∈ (sample_rows id N img s).writes, P c := by
  unfold sample_rows
  apply forLoop_invariant (fun s : sample_trace => ∀ c ∈ s.writes, P c) _ _ _ _ h0
  intro i s hi1 hi2 hs
  apply forLoop_invariant (fun s : sample_trace => ∀ c ∈ s.writes, P c) _ _ _ _ hs
  intro j s _ hj2 hs c hc
  unfold sample_cell at hc
  rcases List.mem_append.1 hc with h | h
  · exact hs c h
  · rw [List.mem_singleton.1 h]; exact hP i j hi1 hi2 hj2

theorem sample_boundary_writes (img : ppm_image) (s1 : sample_trace) :
    ∃ bnd, (sample_boundary img s1).writes = s1.writes ++ bnd
      ∧ ∀ c ∈ bnd, (c.1 < img.x / STEP ∧ c.2 = img.y / STEP)
          ∨ (c.1 = img.x / STEP ∧ c.2 < img.y / STEP) := by
  unfold sample_boundary
  apply forLoop_invariant
    (fun s : sample_trace => ∃ bnd, s.writes = s1.writes ++ bnd
      ∧ ∀ c ∈ bnd, (c.1 < img.x / STEP ∧ c.2 = img.y / STEP)
          ∨ (c.1 = img.x / STEP ∧ c.2 < img.y / STEP))
  · apply forLoop_invariant
      (fun s : sample_trace => ∃ bnd, s.writes = s1.writes ++ bnd
        ∧ ∀ c ∈ bnd, (c.1 < img.x / STEP ∧ c.2 = img.y / STEP)
            ∨ (c.1 = img.x / STEP ∧ c.2 < img.y / STEP))
    · exact ⟨[], (List.append_nil _).symm, fun c hc => absurd hc (List.not_mem_nil c)⟩
    · rintro i s _ hi ⟨bnd, hb, hall⟩
      refine ⟨bnd ++ [(i, img.y / STEP)], ?_, ?_⟩
      · unfold sample_cell; simp only; rw [hb, List.append_assoc]
      · intro c hc
        rcases List.mem_append.1 hc with h | h
        · exact hall c h
        · rw [List.mem_singleton.1 h]; exact Or.inl ⟨hi, rfl⟩
  · rintro j s _ hj ⟨bnd, hb, hall⟩
    refine ⟨bnd ++ [(img.x / STEP, j)], ?_, ?_⟩
    · unfold sample_cell; simp only; rw [hb, List.append_assoc]
    · intro c hc
      rcases List.mem_append.1 hc with h | h
      · exact hall c h
      · rw [List.mem_singleton.1 h]; exact Or.inr ⟨rfl, hj⟩

/-! ## What `march` writes -/

theorem index_in_frame (x y i j a b : Nat) (hi : i < x / STEP) (hj : j < y / STEP)
    (ha : a < STEP) (hb : b < STEP) :
    (i * STEP + a) * y + j * STEP + b < x * y
      ∧ ((i * STEP + a) * y + j * STEP + b) / y < x / STEP * STEP
      ∧ ((i * STEP + a) * y + j * STEP + b) % y < y / STEP * STEP := by
  have hS : STEP = 8 := rfl
  rw [hS] at hi hj ha hb ⊢
  have hc : j * 8 + b < y := by omega
  have hr : i * 8 + a + 1 ≤ x := by omega
  obtain ⟨e1, e2⟩ := block_div_mod y (i * 8 + a) (j * 8 + b) hc
  rw [Nat.add_assoc, e1, e2]
  refine ⟨?_, by omega, by omega⟩
  calc (i * 8 + a) * y + (j * 8 + b) < (i * 8 + a) * y + y := by omega
    _ = (i * 8 + a + 1) * y := by rw [Nat.succ_mul]
    _ ≤ x * y := Nat.mul_le_mul_right y hr

theorem trunc_quotient_eq (k N x : Nat) (hN : 0 < N) (hN53 : N < 2 ^ 53) (hk : k < 2 ^ 53)
    (hx : x < 2 ^ 53) (hb : k * x < 2 ^ 51) :
    Dbl.toInt (Dbl.div (Dbl.mul (Dbl.ofInt k) (Dbl.ofInt x)) (Dbl.ofInt N)) = k * x / N := by
  have hNq : (0 : ℚ) < N := by exact_mod_cast hN
  have hvN : (Dbl.ofInt N).val = N := ofInt_val N hN53
  have hvx : (Dbl.ofInt x).val = x := ofInt_val x hx
  have hvk : (Dbl.ofInt k).val = k := ofInt_val k hk
  have hm : (Dbl.mul (Dbl.ofInt k) (Dbl.ofInt x)).val = ((k * x : Nat) : ℚ) := by
    apply mul_val_exact _ _ (ofInt_den_pos _) (ofInt_den_pos _) _ _ (by omega)
    rw [hvk, hvx]; push_cast; ring
  have hnum : 0 < (Dbl.ofInt N).num := num_pos_of_val_pos _ (by rw [hvN]; exact hNq)
  apply le_antisymm
  · apply toInt_le _ (div_den_pos _ _)
    have hd := div_val_le (Dbl.mul (Dbl.ofInt k) (Dbl.ofInt x)) (Dbl.ofInt N)
      (mul_den_pos _ _) hnum
    rw [hm, hvN] at hd
    refine lt_of_le_of_lt hd ?_
    have h1 : k * x < (k * x / N + 1) * N :=
      (Nat.div_lt_iff_lt_mul hN).1 (Nat.lt_succ_self _)
    have h2 : ((k * x + 1 : Nat) : ℚ) ≤ ((k * x / N + 1 : Nat) : ℚ) * N := by
      exact_mod_cast h1
    have h3 : ((k * x : Nat) : ℚ) < 2 ^ 51 := by exact_mod_cast hb
    have h5 : (0 : ℚ) ≤ ((k * x : Nat) : ℚ) := by positivity
    have h4 : ((k * x : Nat) : ℚ) / N * (1 + 1 / 2 ^ 53)
        = (((k * x : Nat) : ℚ) * (1 + 1 / 2 ^ 53)) / N := by
      rw [div_mul_eq_mul_div]
    rw [h4, div_lt_iff₀ hNq]
    push_cast at h2 h3 h5 ⊢
    nlinarith
  · apply le_toInt _ (div_den_pos _ _)
    apply div_val_ge_nat _ _ (mul_den_pos _ _) hnum
    · rw [hm, hvN]
      exact (le_frac_iff _ _ _ hN).2 (Nat.div_mul_le_self _ _)
    · rw [hm, hvN]
      apply (frac_lt_iff _ _ _ hN).2
      calc k * x < 2 ^ 53 := by omega
        _ ≤ 2 ^ 53 * N := Nat.le_mul_of_pos_right _ hN

theorem floor_le_extent (k N x : Nat) (hN : 0 < N) (hk : k ≤ N) : k * x / N ≤ x :=
  calc k * x / N ≤ N * x / N := Nat.div_le_div_right (Nat.mul_le_mul_right x hk)
    _ = x := Nat.mul_div_cancel_left x hN

theorem rescale_start_eq_floor (id N x : Nat) (hN : 0 < N) (hN53 : N < 2 ^ 53)
    (hid : id < 2 ^ 53) (hx : x < 2 ^ 53) (hb : id * x < 2 ^ 51) :
    rescale_start id N x = id * x / N :=
  trunc_quotient_eq id N x hN hN53 hid hx hb

theorem rescale_end_eq_floor (id N x : Nat) (hN : 0 < N) (hid : id + 1 ≤ N)
    (hN53 : N < 2 ^ 53) (hx : x < 2 ^ 53) (hb : (id + 1) * x < 2 ^ 51) :
    rescale_end id N x = (id + 1) * x / N := by
  unfold rescale_end
  rw [trunc_quotient_eq (id + 1) N x hN hN53 (by omega) hx hb]
  have := floor_le_extent (id + 1) N x hN hid
  unfold min; split <;> omega

theorem sample_end_p_eq_floor (id N p : Nat) (hN : 0 < N) (hid : id + 1 ≤ N)
    (hN53 : N < 2 ^ 53) (hp : p < 2 ^ 53) (hb : (id + 1) * p < 2 ^ 51) :
    sample_end_p id N p = (id + 1) * p / N := by
  unfold sample_end_p
  rw [trunc_quotient_eq (id + 1) N p hN hN53 (by omega) hp hb]
  have := floor_le_extent (id + 1) N p hN hid
  unfold min; split <;> omega

/-! ## What `sample` reads -/

theorem sample_rows_reads (id N : Nat) (img : ppm_image) (g : Grid) :
    ∀ k ∈ (sample_rows id N img ⟨g, [], []⟩).reads, k < img.x * img.y := by
  unfold sample_rows
  apply forLoop_invariant (fun s : sample_trace => ∀ k ∈ s.reads, k < img.x * img.y)
  · intro k hk; exact absurd hk (List.not_mem_nil k)
  · intro i s _ hi hs
    apply forLoop_invariant (fun s : sample_trace => ∀ k ∈ s.reads, k < img.x * img.y) _ _ _ _ hs
    intro j s _ hj hs k hk
    unfold sample_cell at hk
    rcases List.mem_append.1 hk with h | h
    · exact hs k h
    · rw [List.mem_singleton.1 h]
      have h1 := (index_in_frame img.x img.y i j 0 0
        (lt_of_lt_of_le hi (sample_end_p_le id N _)) hj (by decide) (by decide)).1
      rw [Nat.add_zero, Nat.add_zero] at h1
      exact h1

theorem sample_boundary_reads (img : ppm_image) (s1 : sample_trace) :
    ∃ rd, (sample_boundary img s1).reads = s1.reads ++ rd
      ∧ ∀ k ∈ rd, (∃ i, i < img.x / STEP ∧ k = i * STEP * img.y + img.x - 1)
          ∨ (∃ j, j < img.y / STEP ∧ k = (img.x - 1) * img.y + j * STEP) := by
  unfold sample_boundary
  apply forLoop_invariant
    (fun s : sample_trace => ∃ rd, s.reads = s1.reads ++ rd
      ∧ ∀ k ∈ rd, (∃ i, i < img.x / STEP ∧ k = i * STEP * img.y + img.x - 1)
          ∨ (∃ j, j < img.y / STEP ∧ k = (img.x - 1) * img.y + j * STEP))
  · apply forLoop_invariant
      (fun s : sample_trace => ∃ rd, s.reads = s1.reads ++ rd
        ∧ ∀ k ∈ rd, (∃ i, i < img.x / STEP ∧ k = i * STEP * img.y + img.x - 1)
            ∨ (∃ j, j < img.y / STEP ∧ k = (img.x - 1) * img.y + j * STEP))
    · exact ⟨[], (List.append_nil _).symm, fun c hc => absurd hc (List.not_mem_nil c)⟩
    · rintro i s _ hi ⟨rd, hb, hall⟩
      refine ⟨rd ++ [i * STEP * img.y + img.x - 1], ?_, ?_⟩
      · unfold sample_cell; simp only; rw [hb, List.append_assoc]
      · intro c hc
        rcases List.mem_append.1 hc with h | h
        · exact hall c h
        · exact Or.inl ⟨i, hi, List.mem_singleton.1 h⟩
  · rintro j s _ hj ⟨rd, hb, hall⟩
    refine ⟨rd ++ [(img.x - 1) * img.y + j * STEP], ?_, ?_⟩
    · unfold sample_cell; simp only; rw [hb, List.append_assoc]
    · intro c hc
      rcases List.mem_append.1 hc with h | h
      · exact hall c h
      · exact Or.inr ⟨j, hj, List.mem_singleton.1 h⟩

theorem boundary_row_read_in_bounds (img : ppm_image) (hx : 1 ≤ img.x) (j : Nat)
    (hj : j < img.y / STEP) : (img.x - 1) * img.y + j * STEP < img.x * img.y := by
  have hS : STEP = 8 := rfl
  rw [hS] at hj ⊢
  have hc : j * 8 < img.y := by omega
  calc (img.x - 1) * img.y + j * 8 < (img.x - 1) * img.y + img.y := by omega
    _ = (img.x - 1 + 1) * img.y := by rw [Nat.succ_mul]
    _ = img.x * img.y := by rw [Nat.sub_add_cancel hx]

theorem boundary_column_read_in_bounds_of_square (img : ppm_image) (hsq : img.x = img.y)
    (i : Nat) (hi : i < img.x / STEP) : i * STEP * img.y + img.x - 1 < img.x * img.y := by
  have hS : STEP = 8 := rfl
  rw [hS] at hi ⊢
  have h1 : i * 8 + 1 ≤ img.x := by omega
  have h2 : (i * 8 + 1) * img.y ≤ img.x * img.y := Nat.mul_le_mul_right _ h1
  rw [Nat.succ_mul] at h2
  omega

/-! ## `march` with its accesses checked -/

theorem config_k_eq_corners (grid : Grid) (hg : ∀ a b, grid a b = 0 ∨ grid a b = 1)
    (i j : Nat) :
    config_k grid i j
      = 8 * grid i j + 4 * grid i (j + 1) + 2 * grid (i + 1) (j + 1) + grid (i + 1) j := by
  unfold config_k
  rcases hg i j with h1 | h1 <;> rcases hg i (j + 1) with h2 | h2 <;>
    rcases hg (i + 1) (j + 1) with h3 | h3 <;> rcases hg (i + 1) j with h4 | h4 <;>
    rw [h1, h2, h3, h4]

set_option maxRecDepth 100000 in
/-- C1 (fails on the code): the row ranges of `sample` and `march` are not
pairwise disjoint.  With `p = 122` rows of cells and `N = 14` workers, worker 6
is given the rows `[52, 61)` and worker 7 the rows `[60, 69)`: both process row
60, because `7 * (122.0 / 14)` is rounded to a `double` just below `61`. -/
theorem C1_row_ranges_overlap :
    sample_start_p 6 14 122 = 52 ∧ sample_end_p 6 14 122 = 61
      ∧ sample_start_p 7 14 122 = 60 ∧ sample_end_p 7 14 122 = 69
      ∧ march_start 6 14 122 = 52 ∧ march_end 6 14 122 = 61
      ∧ march_start 7 14 122 = 60 ∧ march_end 7 14 122 = 69 := by
  decide

/-- C2: after the sample phase of all `N` workers, every cell `(i, j)` with
`i < p` and `j < q` holds `1` exactly when the mean `(red + green + blue) / 3`
of the pixel at flat index `i * STEP * y + j * STEP` is at most `SIGMA = 200`,
and `0` otherwise.  The working image has at most `RESCALE_X` rows, as every
image returned by `init_rescale` has; `N` is a C `int`; channels are bytes. -/
theorem C2_sampler_threshold (N : Nat) (img : ppm_image) (g0 : Grid)
    (hN : 1 ≤ N) (hN31 : N < 2 ^ 31) (hx : img.x ≤ RESCALE_X)
    (hpix : ∀ k, (img.data k).red < 256 ∧ (img.data k).green < 256 ∧ (img.data k).blue < 256)
    (i j : Nat) (hi : i < img.x / STEP) (hj : j < img.y / STEP) :
    (sample_all N img g0 i j = 1 ↔
        ((img.data (i * STEP * img.y + j * STEP)).red
          + (img.data (i * STEP * img.y + j * STEP)).green
          + (img.data (i * STEP * img.y + j * STEP)).blue) / 3 ≤ SIGMA)
      ∧ (sample_all N img g0 i j = 0 ↔
        ¬ ((img.data (i * STEP * img.y + j * STEP)).red
          + (img.data (i * STEP * img.y + j * STEP)).green
          + (img.data (i * STEP * img.y + j * STEP)).blue) / 3 ≤ SIGMA) := by
  rw [sample_all_interior N img g0 hN (row_bound N img hN31 hx) i j hi hj]
  exact grid_value_eq_one _ (hpix _)

/-- Witness of C2: three workers on the striped 16 x 16 image, cell `(1, 1)`. -/
theorem C2_sampler_threshold_witness :
    (1 ≤ 3 ∧ 3 < 2 ^ 31 ∧ striped_image.x ≤ RESCALE_X
      ∧ (∀ k, (striped_image.data k).red < 256 ∧ (striped_image.data k).green < 256
          ∧ (striped_image.data k).blue < 256)
      ∧ 1 < striped_image.x / STEP ∧ 1 < striped_image.y / STEP)
    ∧ ((sample_all 3 striped_image (init_grid (fun _ _ => 9) 2 2) 1 1 = 1 ↔
        ((striped_image.data (1 * STEP * striped_image.y + 1 * STEP)).red
          + (striped_image.data (1 * STEP * striped_image.y + 1 * STEP)).green
          + (striped_image.data (1 * STEP * striped_image.y + 1 * STEP)).blue) / 3 ≤ SIGMA)
      ∧ (sample_all 3 striped_image (init_grid (fun _ _ => 9) 2 2) 1 1 = 0 ↔
        ¬ ((striped_image.data (1 * STEP * striped_image.y + 1 * STEP)).red
          + (striped_image.data (1 * STEP * striped_image.y + 1 * STEP)).green
          + (striped_image.data (1 * STEP * striped_image.y + 1 * STEP)).blue) / 3 ≤ SIGMA)) :=
  have hpix : ∀ k, (striped_image.data k).red < 256 ∧ (striped_image.data k).green < 256
      ∧ (striped_image.data k).blue < 256 := by
    intro k
    unfold striped_image
    by_cases h : k % 2 = 0
    · simp [h, black]
    · simp [h, white]
  ⟨⟨by decide, by decide, by decide, hpix, by decide, by decide⟩,
    C2_sampler_threshold 3 striped_image (init_grid (fun _ _ => 9) 2 2) (by decide) (by decide)
      (by decide) hpix 1 1 (by decide) (by decide)⟩

/-- C3: on a grid of 0/1 cells the configuration `march` computes for cell
`(i, j)` is `8*grid[i][j] + 4*grid[i][j+1] + 2*grid[i+1][j+1] + grid[i+1][j]`;
it is `0` exactly when the four corners are `0`, `15` exactly when they are all
`1`, and between `1` and `14` for every other combination. -/
theorem C3_configuration (grid : Grid) (hg : ∀ a b, grid a b = 0 ∨ grid a b = 1) (i j : Nat) :
    config_k grid i j
        = 8 * grid i j + 4 * grid i (j + 1) + 2 * grid (i + 1) (j + 1) + grid (i + 1) j
      ∧ (config_k grid i j = 0 ↔
          grid i j = 0 ∧ grid i (j + 1) = 0 ∧ grid (i + 1) (j + 1) = 0 ∧ grid (i + 1) j = 0)
      ∧ (config_k grid i j = 15 ↔
          grid i j = 1 ∧ grid i (j + 1) = 1 ∧ grid (i + 1) (j + 1) = 1 ∧ grid (i + 1) j = 1)
      ∧ (¬ (grid i j = 0 ∧ grid i (j + 1) = 0 ∧ grid (i + 1) (j + 1) = 0 ∧ grid (i + 1) j = 0) →
          ¬ (grid i j = 1 ∧ grid i (j + 1) = 1 ∧ grid (i + 1) (j + 1) = 1 ∧ grid (i + 1) j = 1) →
          1 ≤ config_k grid i j ∧ config_k grid i j ≤ 14) := by
  unfold config_k
  rcases hg i j with h1 | h1 <;> rcases hg i (j + 1) with h2 | h2 <;>
    rcases hg (i + 1) (j + 1) with h3 | h3 <;> rcases hg (i + 1) j with h4 | h4 <;>
    rw [h1, h2, h3, h4] <;> decide

/-- Witness of C3: the grid that is `1` on row 0 and `0` elsewhere, cell
`(0, 0)`, whose configuration is `8 + 4 = 12`. -/
theorem C3_configuration_witness :
    (∀ a b, top_row_grid a b = 0 ∨ top_row_grid a b = 1)
    ∧ (config_k top_row_grid 0 0
          = 8 * top_row_grid 0 0 + 4 * top_row_grid 0 (0 + 1) + 2 * top_row_grid (0 + 1) (0 + 1)
            + top_row_grid (0 + 1) 0
      ∧ (config_k top_row_grid 0 0 = 0 ↔
          top_row_grid 0 0 = 0 ∧ top_row_grid 0 (0 + 1) = 0 ∧ top_row_grid (0 + 1) (0 + 1) = 0
            ∧ top_row_grid (0 + 1) 0 = 0)
      ∧ (config_k top_row_grid 0 0 = 15 ↔
          top_row_grid 0 0 = 1 ∧ top_row_grid 0 (0 + 1) = 1 ∧ top_row_grid (0 + 1) (0 + 1) = 1
            ∧ top_row_grid (0 + 1) 0 = 1)
      ∧ (¬ (top_row_grid 0 0 = 0 ∧ top_row_grid 0 (0 + 1) = 0 ∧ top_row_grid (0 + 1) (0 + 1) = 0
            ∧ top_row_grid (0 + 1) 0 = 0) →
          ¬ (top_row_grid 0 0 = 1 ∧ top_row_grid 0 (0 + 1) = 1
            ∧ top_row_grid (0 + 1) (0 + 1) = 1 ∧ top_row_grid (0 + 1) 0 = 1) →
          1 ≤ config_k top_row_grid 0 0 ∧ config_k top_row_grid 0 0 ≤ 14)) :=
  have hg : ∀ a b, top_row_grid a b = 0 ∨ top_row_grid a b = 1 := by
    intro a b
    unfold top_row_grid
    by_cases h : a = 0
    · right; simp [h]
    · left; simp [h]
  ⟨hg, C3_configuration top_row_grid hg 0 0⟩

/-- C4: with sixteen `STEP x STEP` stamps and a grid of 0/1 cells, after the
march phase of all `N` workers the pixel at row `i*STEP + a`, column
`j*STEP + b` of the working image is pixel `(a, b)` of the stamp with index
`k = 8*grid[i][j] + 4*grid[i][j+1] + 2*grid[i+1][j+1] + grid[i+1][j]`, for every
cell `i < p`, `j < q` and every offset `a, b < STEP`.  The working image has at
most `RESCALE_X` rows and `N` is a C `int`. -/
theorem C4_contour_stamping (N : Nat) (contour_map : Nat → ppm_image) (grid : Grid)
    (img : ppm_image) (hN : 1 ≤ N) (hN31 : N < 2 ^ 31) (hx : img.x ≤ RESCALE_X)
    (hcm : ∀ k, k < CONTOUR_CONFIG_COUNT → (contour_map k).x = STEP ∧ (contour_map k).y = STEP)
    (hg : ∀ a b, grid a b = 0 ∨ grid a b = 1)
    (i j a b : Nat) (hi : i < img.x / STEP) (hj : j < img.y / STEP) (ha : a < STEP)
    (hb : b < STEP) :
    (march_all N contour_map grid img).data ((i * STEP + a) * img.y + (j * STEP + b))
      = (contour_map
          (8 * grid i j + 4 * grid i (j + 1) + 2 * grid (i + 1) (j + 1) + grid (i + 1) j)).data
          (a * STEP + b) := by
  rw [← config_k_eq_corners grid hg i j]
  exact march_all_block N contour_map grid img hN (row_bound N img hN31 hx)
    (fun i j _ _ => hcm _ (config_k_lt grid hg i j)) i j a b hi hj ha hb

/-- Witness of C4: two workers, the white 16 x 16 image, the grid that is `1`
on row 0 and the grey stamps; pixel `(3, 5)` of the block of cell `(0, 1)`,
whose configuration is `8 + 4 = 12`. -/
theorem C4_contour_stamping_witness :
    (1 ≤ 2 ∧ 2 < 2 ^ 31 ∧ (solid_white 16 16).x ≤ RESCALE_X
      ∧ (∀ k, k < CONTOUR_CONFIG_COUNT → (shade_stamps k).x = STEP ∧ (shade_stamps k).y = STEP)
      ∧ (∀ a b, top_row_grid a b = 0 ∨ top_row_grid a b = 1)
      ∧ 0 < (solid_white 16 16).x / STEP ∧ 1 < (solid_white 16 16).y / STEP
      ∧ 3 < STEP ∧ 5 < STEP)
    ∧ (march_all 2 shade_stamps top_row_grid (solid_white 16 16)).data
          ((0 * STEP + 3) * (solid_white 16 16).y + (1 * STEP + 5))
        = (shade_stamps
            (8 * top_row_grid 0 1 + 4 * top_row_grid 0 (1 + 1) + 2 * top_row_grid (0 + 1) (1 + 1)
              + top_row_grid (0 + 1) 1)).data (3 * STEP + 5) :=
  have hg : ∀ a b, top_row_grid a b = 0 ∨ top_row_grid a b = 1 := by
    intro a b
    unfold top_row_grid
    by_cases h : a = 0
    · right; simp [h]
    · left; simp [h]
  ⟨⟨by decide, by decide, by decide, fun _ _ => ⟨rfl, rfl⟩, hg, by decide, by decide,
      by decide, by decide⟩,
    C4_contour_stamping 2 shade_stamps top_row_grid (solid_white 16 16) (by decide) (by decide)
      (by decide) (fun _ _ => ⟨rfl, rfl⟩) hg 0 1 3 5 (by decide) (by decide) (by decide)
      (by decide)⟩

set_option maxRecDepth 100000 in
/-- C5 (fails on the code): the corner cell `grid[p][q]` is written by no
worker, whatever `N` and the image are, so it keeps the content `init_grid`
left there.  On the white 8 x 8 image with one worker and the heap byte `77`,
the corner still holds `77` after `sample`, and the configuration `march` reads
for cell `(0, 0)` is `154`, which is no index of the sixteen stamps. -/
theorem C5_corner_cell_never_written :
    (∀ (N : Nat) (img : ppm_image) (g0 : Grid),
        sample_all N img g0 (img.x / STEP) (img.y / STEP) = g0 (img.x / STEP) (img.y / STEP))
      ∧ sample_all 1 (solid_white 8 8) (init_grid (fun _ _ => 77) 1 1) 1 1 = 77
      ∧ config_k (sample_all 1 (solid_white 8 8) (init_grid (fun _ _ => 77) 1 1)) 0 0 = 154 :=
  ⟨fun N img g0 => sample_all_frame N img g0 _ _ (Or.inl ⟨le_refl _, le_refl _⟩),
    by decide, by decide⟩

set_option maxRecDepth 100000 in
/-- C6 (fails on the code): on an image that is not square the boundary column
is not sampled from the last column.  On the 8 x 16 image whose only black
pixel is the last pixel of row 0, `grid[0][q]` is `0` after `sample`, the
threshold result of the white pixel at flat index `x - 1 = 7`, while the pixel
of row 0 in the last column (flat index `y - 1 = 15`) gives `1`. -/
theorem C6_boundary_column_reads_x_minus_one :
    sample_all 1 wide_image (init_grid (fun _ _ => 0) 1 2) 0 (wide_image.y / STEP) = 0
      ∧ sample_all 1 wide_image (init_grid (fun _ _ => 0) 1 2) 0 (wide_image.y / STEP)
          = grid_value (wide_image.data (0 * STEP * wide_image.y + wide_image.x - 1))
      ∧ grid_value (wide_image.data (0 * STEP * wide_image.y + (wide_image.y - 1))) = 1 := by
  decide

/-- C7: when the source is at most `RESCALE_X x RESCALE_Y`, `init_rescale`
returns the source itself, and `rescale_image`, for every worker id and every
`N`, hands it back unchanged; so does the rescale phase of all workers. -/
theorem C7_noop_rescale (sample_bicubic : ppm_image → Nat × Nat → Nat × Nat → ppm_pixel)
    (fresh : Nat → ppm_pixel) (image : ppm_image)
    (hx : image.x ≤ RESCALE_X) (hy : image.y ≤ RESCALE_Y) :
    init_rescale fresh image = image
      ∧ (∀ id N, rescale_image sample_bicubic id N image (init_rescale fresh image) = image)
      ∧ (∀ N, rescale_all sample_bicubic N image (init_rescale fresh image) = image) := by
  have h : init_rescale fresh image = image := by
    unfold init_rescale
    rw [if_pos ⟨hx, hy⟩]
  rw [h]
  exact ⟨rfl, fun id N => rescale_image_same sample_bicubic id N image,
    fun N => rescale_fold_same sample_bicubic N image _⟩

/-- Witness of C7: the striped 16 x 16 image, with a sampler and a fresh buffer
that would both produce black. -/
theorem C7_noop_rescale_witness :
    (striped_image.x ≤ RESCALE_X ∧ striped_image.y ≤ RESCALE_Y)
    ∧ (init_rescale (fun _ => black) striped_image = striped_image
      ∧ (∀ id N, rescale_image (fun _ _ _ => black) id N striped_image
            (init_rescale (fun _ => black) striped_image) = striped_image)
      ∧ (∀ N, rescale_all (fun _ _ _ => black) N striped_image
            (init_rescale (fun _ => black) striped_image) = striped_image)) :=
  ⟨⟨by decide, by decide⟩,
    C7_noop_rescale (fun _ _ _ => black) (fun _ => black) striped_image (by decide) (by decide)⟩

/-- C8: when the source exceeds the bound in either dimension, the working
image of `init_rescale` is exactly `RESCALE_X x RESCALE_Y = 2048 x 2048`. -/
theorem C8_rescale_to_bound (fresh : Nat → ppm_pixel) (image : ppm_image)
    (h : RESCALE_X < image.x ∨ RESCALE_Y < image.y) :
    (init_rescale fresh image).x = 2048 ∧ (init_rescale fresh image).y = 2048 := by
  unfold init_rescale
  rw [if_neg (by omega)]
  exact ⟨rfl, rfl⟩

/-- Witness of C8: a 4096 x 100 source, which exceeds the bound in one
dimension only. -/
theorem C8_rescale_to_bound_witness :
    (RESCALE_X < (solid_white 4096 100).x ∨ RESCALE_Y < (solid_white 4096 100).y)
    ∧ ((init_rescale (fun _ => black) (solid_white 4096 100)).x = 2048
      ∧ (init_rescale (fun _ => black) (solid_white 4096 100)).y = 2048) :=
  ⟨Or.inl (by decide),
    C8_rescale_to_bound (fun _ => black) (solid_white 4096 100) (Or.inl (by decide))⟩

set_option maxRecDepth 100000 in
/-- C10 (fails on the code): on the white 16 x 16 image with four workers every
cell `sample` writes is `0`, but the corner `grid[2][2]` is never written.  When
`init_grid` left a `1` there, the configuration of cell `(1, 1)` is `2`, not
`0`, and the bottom-right block of the output is stamp 2 instead of stamp 0. -/
theorem C10_solid_white_corner_config :
    sample_all 4 (solid_white 16 16) (init_grid (fun _ _ => 1) 2 2) 1 1 = 0
      ∧ sample_all 4 (solid_white 16 16) (init_grid (fun _ _ => 1) 2 2) 1 2 = 0
      ∧ sample_all 4 (solid_white 16 16) (init_grid (fun _ _ => 1) 2 2) 2 1 = 0
      ∧ sample_all 4 (solid_white 16 16) (init_grid (fun _ _ => 1) 2 2) 2 2 = 1
      ∧ config_k (sample_all 4 (solid_white 16 16) (init_grid (fun _ _ => 1) 2 2)) 1 1 = 2
      ∧ (march_all 4 shade_stamps
            (sample_all 4 (solid_white 16 16) (init_grid (fun _ _ => 1) 2 2))
            (solid_white 16 16)).data (8 * 16 + 8) = (shade_stamps 2).data 0
      ∧ (shade_stamps 2).data 0 ≠ (shade_stamps 0).data 0 := by
  decide

set_option maxRecDepth 100000 in
/-- C12 (fails on the code): two workers of `march` write the same pixels.  On a
white working image of 976 rows and 8 columns (122 rows of cells, one cell per
row) with `N = 14`, the pixel at flat index `3840` (row 480, column 0, the first
pixel of cell row 60) is written by worker 6 and by worker 7. -/
theorem C12_march_write_sets_overlap :
    3840 ∈ (march_traced 6 14 shade_stamps (fun _ _ => 0) (solid_white 976 8)
        ⟨(solid_white 976 8).data, []⟩).writes
      ∧ 3840 ∈ (march_traced 7 14 shade_stamps (fun _ _ => 0) (solid_white 976 8)
        ⟨(solid_white 976 8).data, []⟩).writes := by
  decide

/-- C13: the cells `sample` writes are, in program order, the cells of the
worker's own rows followed by the boundary cells `bnd`.  Every cell of the own
rows has its row in the worker's range (hence below `p`) and its column below
`q`; every cell of `bnd` lies in column `q` or in row `p`; and `bnd` is empty
unless the worker is the last one (`id + 1 = N`).  The recorded run computes
the same grid as `sample`. -/
theorem C13_single_writer_boundary (id N : Nat) (img : ppm_image) (g : Grid) :
    ∃ bnd : List (Nat × Nat),
      (sample_traced id N img ⟨g, [], []⟩).writes
          = (sample_rows id N img ⟨g, [], []⟩).writes ++ bnd
        ∧ (∀ c ∈ (sample_rows id N img ⟨g, [], []⟩).writes,
            sample_start_p id N (img.x / STEP) ≤ c.1
              ∧ c.1 < sample_end_p id N (img.x / STEP)
              ∧ c.1 < img.x / STEP ∧ c.2 < img.y / STEP)
        ∧ (∀ c ∈ bnd, (c.1 < img.x / STEP ∧ c.2 = img.y / STEP)
            ∨ (c.1 = img.x / STEP ∧ c.2 < img.y / STEP))
        ∧ (id + 1 ≠ N → bnd = [])
        ∧ (sample_traced id N img ⟨g, [], []⟩).grid = sample id N img g := by
  have hown : ∀ c ∈ (sample_rows id N img ⟨g, [], []⟩).writes,
      sample_start_p id N (img.x / STEP) ≤ c.1
        ∧ c.1 < sample_end_p id N (img.x / STEP)
        ∧ c.1 < img.x / STEP ∧ c.2 < img.y / STEP := by
    apply sample_rows_writes id N img ⟨g, [], []⟩
    · intro c hc; exact absurd hc (List.not_mem_nil c)
    · intro i j h1 h2 h3
      exact ⟨h1, h2, lt_of_lt_of_le h2 (sample_end_p_le id N _), h3⟩
  by_cases h : id + 1 = N
  · obtain ⟨bnd, hb, hall⟩ := sample_boundary_writes img (sample_rows id N img ⟨g, [], []⟩)
    refine ⟨bnd, ?_, hown, hall, fun hne => absurd h hne, sample_traced_grid id N img _⟩
    unfold sample_traced
    rw [if_pos h]
    exact hb
  · refine ⟨[], ?_, hown, fun c hc => absurd hc (List.not_mem_nil c), fun _ => rfl,
      sample_traced_grid id N img _⟩
    unfold sample_traced
    rw [if_neg h, List.append_nil]

set_option maxRecDepth 100000 in
/-- C14 (fails on the code): the start bound of `sample` and `march` is not the
floor of `id * p / N`.  With `p = 122` and `N = 14`, worker 7 starts at `60`,
while `floor(7 * 122 / 14) = 61` is where worker 6 ends. -/
theorem C14_start_is_not_the_floor :
    sample_start_p 7 14 122 = 60 ∧ march_start 7 14 122 = 60 ∧ 7 * 122 / 14 = 61
      ∧ sample_end_p 6 14 122 = 61 ∧ march_end 6 14 122 = 61 := by
  decide

set_option maxRecDepth 100000 in
/-- C15 (fails on the code): on a white working image of 72 rows and 8 columns,
whose pixel array has `72 * 8 = 576` entries, the single worker of `N = 1`
reads, for the boundary column of cell row 8, the flat index
`8 * STEP * y + x - 1 = 583`. -/
theorem C15_boundary_column_read_out_of_bounds :
    583 ∈ (sample_traced 0 1 (solid_white 72 8) ⟨init_grid (fun _ _ => 0) 9 1, [], []⟩).reads
      ∧ (solid_white 72 8).x * (solid_white 72 8).y = 576
      ∧ 8 * STEP * (solid_white 72 8).y + (solid_white 72 8).x - 1 = 583 := by
  decide

set_option maxRecDepth 100000 in
/-- C16 (fails on the code): on the white 16 x 16 image with four workers and
the heap byte `255` left in the grid by `init_grid`, the configuration `march`
computes for cell `(1, 1)` on the grid left by the sample phase is `254`, which
is not below `CONTOUR_CONFIG_COUNT = 16`. -/
theorem C16_corner_configuration_out_of_range :
    config_k (sample_all 4 (solid_white 16 16) (init_grid (fun _ _ => 255) 2 2)) 1 1 = 254
      ∧ ¬ 254 < CONTOUR_CONFIG_COUNT := by
  decide

end Tema1
